import Mathlib

/-!
Verification of the RTS spatial-query / navigation core.

This file shallowly embeds the two components the specification describes:

* the A* path planner (Pathfinder: `MinHeap`, `findPath`, `_computePath`,
  `getNeighbors`, `isPassable`, `isDiagonalPassable`, `smoothPath`,
  `hasLineOfSight`, and the bounded FIFO path cache), and
* the spatial hash grid (SpatialHash: `_getCellsForEntity`, `insert`,
  `remove`, `update`, `query`).

Number model: every JavaScript number the pathfinder manipulates is an exact
integer multiple of `1/S` with `S = 500 * 2^52` — the literals `1.0`, `1.414`,
`0.5` and the double constant `Math.SQRT2 = 6369051672525773 / 2^52` all are,
and the only operations performed are addition, comparison and `Math.floor`,
which are exact and scale-invariant.  Numbers are therefore embedded as `ℤ`
counts of `1/S` units; `Math.floor` becomes flooring division by `S`.
Mutable node/array objects are modelled as natural-number identifiers with
explicit stores, so aliasing and in-place mutation are represented faithfully.
-/

namespace RTS

/-- The global scale: JS numbers are exact integer multiples of `1/S`,
`S = 500 * 2^52`. -/
def S : ℤ := 500 * 4503599627370496

/-- The JS number `0.5` in `1/S` units (used for tile centres `x + 0.5`). -/
def half : ℤ := 250 * 4503599627370496

/-- The IEEE-754 double `Math.SQRT2 = 6369051672525773 / 2^52`, in `1/S`
units (exact). -/
def SQRT2S : ℤ := 500 * 6369051672525773

/-- The cardinal move cost literal `1.0`, in `1/S` units. -/
def cost1 : ℤ := S

/-- The diagonal move cost literal `1.414` (`= 707/500`), in `1/S` units. -/
def cost1414 : ℤ := 707 * 4503599627370496

/-- JS `Math.floor` on a number in `1/S` units (flooring division). -/
def mfloor (v : ℤ) : ℤ := Int.fdiv v S

/-- Waypoint: an `{x, y}` point in continuous tile space, in `1/S` units. -/
abbrev Wp : Type := ℤ × ℤ

/-- The tile-centre waypoint coordinate `t + 0.5` in `1/S` units
(`_computePath` pushes `curr.x + 0.5`). -/
def center (t : ℤ) : ℤ := t * S + half

/-- Pathfinder construction state: map dimensions and the per-tile passability
grid, `map[y][x]` holding `tile.passable` (from the Pathfinder constructor). -/
structure Pathfinder where
  width : ℤ
  height : ℤ
  map : List (List Bool)
deriving DecidableEq

/-- Embedding of `Pathfinder.isPassable`: out-of-bounds tiles are impassable,
in-bounds tiles report `map[y][x].passable`. -/
def isPassable (pf : Pathfinder) (x y : ℤ) : Bool :=
  if x < 0 ∨ pf.width ≤ x ∨ y < 0 ∨ pf.height ≤ y then false
  else (pf.map.getD y.toNat []).getD x.toNat false

/-- Embedding of `Pathfinder.isDiagonalPassable`: both cardinal tiles adjacent
to the diagonal move must be passable. -/
def isDiagonalPassable (pf : Pathfinder) (x y dx dy : ℤ) : Bool :=
  isPassable pf (x + dx) y && isPassable pf x (y + dy)

/-- A neighbour record `{x, y, cost}` as produced by `Pathfinder.getNeighbors`
(cost in `1/S` units). -/
structure Neighbor where
  x : ℤ
  y : ℤ
  cost : ℤ
deriving DecidableEq

/-- The eight direction records of `Pathfinder.getNeighbors`, in source order
(Left, Right, Up, Down, Up-Left, Up-Right, Down-Left, Down-Right); note the
diagonal cost literal is `1.414`, not `Math.SQRT2`. -/
def directions : List (ℤ × ℤ × ℤ) :=
  [(-1, 0, cost1), (1, 0, cost1), (0, -1, cost1), (0, 1, cost1),
   (-1, -1, cost1414), (1, -1, cost1414), (-1, 1, cost1414), (1, 1, cost1414)]

/-- Embedding of `Pathfinder.getNeighbors`: bounds check, then the diagonal
corner-cutting filter (`dir.cost > 1` requires `isDiagonalPassable`), pushing
surviving neighbours in direction order. -/
def getNeighbors (pf : Pathfinder) (x y : ℤ) : List Neighbor :=
  directions.filterMap (fun d =>
    let nx := x + d.1
    let ny := y + d.2.1
    if 0 ≤ nx ∧ nx < pf.width ∧ 0 ≤ ny ∧ ny < pf.height then
      if S < d.2.2 ∧ isDiagonalPassable pf x y d.1 d.2.1 = false then none
      else some ⟨nx, ny, d.2.2⟩
    else none)

/-- The octile heuristic of `Pathfinder._computePath`,
`Math.max(dx, dy) + (Math.SQRT2 - 1) * Math.min(dx, dy)`, in `1/S` units
(`dx`, `dy` are tile counts). -/
def octileS (dx dy : ℤ) : ℤ := max dx dy * S + (SQRT2S - S) * min dx dy

/-- The Manhattan distance `Math.abs(n.x - startNode.x) + Math.abs(n.y -
startNode.y)` used by the retargeting block of `_computePath`. -/
def manh (sX sY : ℤ) (n : Neighbor) : ℕ :=
  (n.x - sX).natAbs + (n.y - sY).natAbs

/-- One iteration of the retargeting loop of `_computePath`: keep the
passable neighbour of strictly smallest Manhattan distance to the start
(`minDist` starts at `Infinity`, modelled by `Option`). -/
def retargetStep (pf : Pathfinder) (sX sY : ℤ)
    (best : Option (Neighbor × ℕ)) (n : Neighbor) : Option (Neighbor × ℕ) :=
  if isPassable pf n.x n.y then
    let d := manh sX sY n
    match best with
    | none => some (n, d)
    | some bm => if d < bm.2 then some (n, d) else best
  else best

/-- Embedding of the destination-retargeting block of `Pathfinder._computePath`:
when the destination is impassable, scan `getNeighbors(endNode)` in order for
the nearest passable candidate. -/
def retargetEnd (pf : Pathfinder) (sX sY eX eY : ℤ) : Option (ℤ × ℤ) :=
  ((getNeighbors pf eX eY).foldl (retargetStep pf sX sY) none).map
    (fun bm => (bm.1.x, bm.1.y))

/-! ### The binary min-heap

The source `MinHeap` stores mutable node objects ordered by their current
`f` field.  Nodes are modelled by identifiers, the heap by a list of
identifiers, and each heap operation receives the current `f`-lookup
function, exactly as the JS code reads `node.f` at comparison time. -/

/-- One step structure of `MinHeap.bubbleUp`: swap with the parent while the
parent's `f` is strictly larger.  The fuel argument only bounds the walk:
the index strictly decreases, so fuel `idx + 1` always suffices. -/
def bubbleUpF (f : ℕ → ℤ) : ℕ → List ℕ → ℕ → List ℕ
  | 0, h, _ => h
  | fuel + 1, h, idx =>
    if idx = 0 then h
    else
      let parent := (idx - 1) / 2
      if f (h.getD parent 0) ≤ f (h.getD idx 0) then h
      else bubbleUpF f fuel ((h.set parent (h.getD idx 0)).set idx (h.getD parent 0))
        parent

/-- Embedding of `MinHeap.push`. -/
def heapPush (f : ℕ → ℤ) (h : List ℕ) (v : ℕ) : List ℕ :=
  bubbleUpF f (h.length + 1) (h ++ [v]) h.length

/-- Fuelled recursion for `MinHeap.bubbleDown` (each step moves to a strictly
larger index, so fuel `h.length` always suffices). -/
def bubbleDownF (f : ℕ → ℤ) : ℕ → List ℕ → ℕ → List ℕ
  | 0, h, _ => h
  | fuel + 1, h, idx =>
    let l := 2 * idx + 1
    let r := 2 * idx + 2
    let s1 := if l < h.length ∧ f (h.getD l 0) < f (h.getD idx 0) then l else idx
    let s2 := if r < h.length ∧ f (h.getD r 0) < f (h.getD s1 0) then r else s1
    if s2 = idx then h
    else bubbleDownF f fuel ((h.set idx (h.getD s2 0)).set s2 (h.getD idx 0)) s2

/-- Embedding of `MinHeap.pop`: return the root, move the last element to the
root and sift it down. -/
def heapPop (f : ℕ → ℤ) (h : List ℕ) : Option ℕ × List ℕ :=
  if h.length = 0 then (none, h)
  else if h.length = 1 then (some (h.getD 0 0), [])
  else
    let m := h.getD 0 0
    let last := h.getD (h.length - 1) 0
    let h1 := h.dropLast.set 0 last
    (some m, bubbleDownF f h1.length h1 0)

/-! ### The A* search state -/

/-- A search node `{x, y, g, h, f, parent}` of `_computePath` (numeric fields
in `1/S` units, `parent` an optional node identifier). -/
structure NodeData where
  x : ℤ
  y : ℤ
  g : ℤ
  h : ℤ
  f : ℤ
  parent : Option ℕ
deriving DecidableEq

/-- Mutable state of one `_computePath` search: the node store (object heap),
a fresh-identifier counter, the `openList` binary heap, the `openSet`
key-to-node map mirror, and the `closedList` key set. -/
structure AState where
  store : List (ℕ × NodeData)
  nextId : ℕ
  heap : List ℕ
  openSet : List ((ℤ × ℤ) × ℕ)
  closed : List (ℤ × ℤ)
deriving DecidableEq

/-- Node lookup in the store (reading a field of the node object). -/
def storeGet (s : List (ℕ × NodeData)) (i : ℕ) : Option NodeData := s.lookup i

/-- In-place mutation of a node object in the store. -/
def storeSet (s : List (ℕ × NodeData)) (i : ℕ) (nd : NodeData) :
    List (ℕ × NodeData) :=
  s.map (fun p => if p.1 = i then (i, nd) else p)

/-- The live `f`-field reader the heap operations use. -/
def fOf (s : List (ℕ × NodeData)) : ℕ → ℤ :=
  fun i => ((storeGet s i).map NodeData.f).getD 0

/-- One iteration of the neighbour loop of `_computePath`: skip closed or
impassable tiles; create and push an unseen node (octile heuristic, parent,
`g`, `f`); relax an open node in place (update `parent`/`g`/`f`) and re-push
its identifier onto the heap. -/
def stepNeighbor (pf : Pathfinder) (endX endY : ℤ) (curId : ℕ) (cur : NodeData)
    (st : AState) (nb : Neighbor) : AState :=
  if (st.closed.contains (nb.x, nb.y)) ∨ isPassable pf nb.x nb.y = false then st
  else
    let gScore := cur.g + nb.cost
    match st.openSet.lookup (nb.x, nb.y) with
    | none =>
      let dx : ℤ := ((nb.x - endX).natAbs : ℤ)
      let dy : ℤ := ((nb.y - endY).natAbs : ℤ)
      let hh := octileS dx dy
      let nd : NodeData := ⟨nb.x, nb.y, gScore, hh, gScore + hh, some curId⟩
      let store1 := st.store ++ [(st.nextId, nd)]
      { store := store1
        nextId := st.nextId + 1
        heap := heapPush (fOf store1) st.heap st.nextId
        openSet := st.openSet ++ [((nb.x, nb.y), st.nextId)]
        closed := st.closed }
    | some exId =>
      match storeGet st.store exId with
      | none => st
      | some ex =>
        if gScore < ex.g then
          let nd := { ex with parent := some curId, g := gScore, f := gScore + ex.h }
          let store1 := storeSet st.store exId nd
          { st with store := store1, heap := heapPush (fOf store1) st.heap exId }
        else st

/-- Path reconstruction of `_computePath`: follow parent pointers from the
goal node, pushing tile centres, until a parentless node (the start) is
reached.  The accumulator is in goal-to-start order, as in the source; the
caller reverses it.  Fuel bounds the walk (parent chains are acyclic and
shorter than the number of allocated nodes). -/
def reconstruct (store : List (ℕ × NodeData)) : ℕ → ℕ → List Wp → List Wp
  | 0, _, acc => acc
  | fuel + 1, i, acc =>
    match storeGet store i with
    | none => acc
    | some nd =>
      match nd.parent with
      | none => acc
      | some p => reconstruct store fuel p (acc ++ [(center nd.x, center nd.y)])

/-- Embedding of `Pathfinder.hasLineOfSight`'s Bresenham walk.  Each
non-final iteration moves at least one coordinate one step toward the target,
so fuel `dx + dy + 1` always suffices. -/
def bres (pf : Pathfinder) (x1 y1 dx dy sx sy : ℤ) :
    ℕ → ℤ → ℤ → ℤ → Bool
  | 0, _, _, _ => false
  | fuel + 1, x0, y0, err =>
    if isPassable pf x0 y0 = false then false
    else if x0 = x1 ∧ y0 = y1 then true
    else
      let e2 := 2 * err
      let err1 := if e2 > -dy then err - dy else err
      let x0' := if e2 > -dy then x0 + sx else x0
      let err2 := if e2 < dx then err1 + dx else err1
      let y0' := if e2 < dx then y0 + sy else y0
      bres pf x1 y1 dx dy sx sy fuel x0' y0' err2

/-- Embedding of `Pathfinder.hasLineOfSight`: floor both endpoints to tiles
and walk the Bresenham line, requiring every stepped tile passable. -/
def hasLineOfSight (pf : Pathfinder) (a b : Wp) : Bool :=
  let x0 := mfloor a.1
  let y0 := mfloor a.2
  let x1 := mfloor b.1
  let y1 := mfloor b.2
  let dx := (x1 - x0).natAbs
  let dy := (y1 - y0).natAbs
  let sx : ℤ := if x0 < x1 then 1 else -1
  let sy : ℤ := if y0 < y1 then 1 else -1
  bres pf x1 y1 (dx : ℤ) (dy : ℤ) sx sy (dx + dy + 1) x0 y0 ((dx : ℤ) - (dy : ℤ))

/-- The backward scan of `Pathfinder.smoothPath`: from index `i` down to
`current + 1`, return the first (largest) index with line of sight from
`path[current]`, defaulting to `current + 1`. -/
def smoothScan (pf : Pathfinder) (p : List Wp) (current : ℕ) : ℕ → ℕ
  | 0 => current + 1
  | i + 1 =>
    if i + 1 ≤ current then current + 1
    else if hasLineOfSight pf (p.getD current (0, 0)) (p.getD (i + 1) (0, 0)) then
      i + 1
    else smoothScan pf p current i

/-- The main loop of `Pathfinder.smoothPath`: repeatedly jump to the farthest
visible waypoint.  Each step strictly increases `current`, so fuel
`p.length` always suffices. -/
def smoothLoop (pf : Pathfinder) (p : List Wp) :
    ℕ → ℕ → List Wp → List Wp
  | 0, _, acc => acc
  | fuel + 1, current, acc =>
    if current < p.length - 1 then
      let farthest := smoothScan pf p current (p.length - 1)
      smoothLoop pf p fuel farthest (acc ++ [p.getD farthest (0, 0)])
    else acc

/-- Embedding of `Pathfinder.smoothPath` ("string pulling"). -/
def smoothPath (pf : Pathfinder) (p : List Wp) : List Wp :=
  if p.length ≤ 2 then p
  else smoothLoop pf p p.length 0 [p.getD 0 (0, 0)]

/-- The `MAX_ITERATIONS` expansion cap of `_computePath`. -/
def MAXITER : ℕ := 2000

/-- The main `while (openList.length > 0)` loop of `_computePath`.  The
remaining-fuel parameter mirrors `iterations`: entering the body with fuel
`0` is exactly `iterations > MAX_ITERATIONS`, which aborts with an empty
path.  Returns the path, the number of executed loop bodies, and whether the
cap aborted the search. -/
def aloop (pf : Pathfinder) (endX endY : ℤ) :
    ℕ → AState → List Wp × ℕ × Bool
  | 0, st => if st.heap.length = 0 then ([], 0, false) else ([], 0, true)
  | fuel + 1, st =>
    if st.heap.length = 0 then ([], 0, false)
    else
      match heapPop (fOf st.store) st.heap with
      | (none, _) => ([], 0, false)
      | (some curId, heap1) =>
        match storeGet st.store curId with
        | none =>
          let out := aloop pf endX endY fuel { st with heap := heap1 }
          (out.1, out.2.1 + 1, out.2.2)
        | some cur =>
          let st1 : AState :=
            { st with heap := heap1,
                      openSet := st.openSet.filter (fun q => q.1 ≠ (cur.x, cur.y)) }
          if cur.x = endX ∧ cur.y = endY then
            (smoothPath pf ((reconstruct st1.store st1.nextId curId []).reverse),
              1, false)
          else
            let st2 := { st1 with closed := st1.closed ++ [(cur.x, cur.y)] }
            let st3 := (getNeighbors pf cur.x cur.y).foldl
              (stepNeighbor pf endX endY curId cur) st2
            let out := aloop pf endX endY fuel st3
            (out.1, out.2.1 + 1, out.2.2)

/-- The initial search state of `_computePath`: the start node (zero costs,
no parent) alone in the store, the heap and the open set. -/
def initA (sX sY : ℤ) : AState :=
  { store := [(0, ⟨sX, sY, 0, 0, 0, none⟩)], nextId := 1, heap := [0],
    openSet := [((sX, sY), 0)], closed := [] }

/-- Embedding of `Pathfinder._computePath` (tile arguments): retarget an
impassable destination (empty path if no candidate), then run the A* loop
from the start node.  Returns the path together with the loop's
expansion count and abort flag. -/
def computePath (pf : Pathfinder) (sX sY eX eY : ℤ) : List Wp × ℕ × Bool :=
  let endP : Option (ℤ × ℤ) :=
    if isPassable pf eX eY then some (eX, eY)
    else retargetEnd pf sX sY eX eY
  match endP with
  | none => ([], 0, false)
  | some e => aloop pf e.1 e.2 MAXITER (initA sX sY)

/-- The path cache: insertion-ordered association list from integer
`(start, end)` tile pairs to waypoint lists (a JS `Map` preserves insertion
order; FIFO eviction deletes the first key). -/
abbrev Cache := List ((ℤ × ℤ × ℤ × ℤ) × List Wp)

/-- The `cacheMaxSize` bound (500 entries). -/
def cacheMaxSize : ℕ := 500

/-- Embedding of `Pathfinder.findPath` acting on the cache (value level):
floor the continuous arguments (in `1/S` units) to tiles, return `[]` for
equal tiles, consult the cache when `useCache`, otherwise compute; memoize
non-empty results with FIFO eviction at capacity.  Returns the waypoint list
and the updated cache. -/
def findPath (pf : Pathfinder) (cache : Cache)
    (startX startY endX endY : ℤ) (useCache : Bool) : List Wp × Cache :=
  let sX := mfloor startX
  let sY := mfloor startY
  let eX := mfloor endX
  let eY := mfloor endY
  if sX = eX ∧ sY = eY then ([], cache)
  else
    let key := (sX, sY, eX, eY)
    match (if useCache then cache.lookup key else none) with
    | some p => (p, cache)
    | none =>
      let path := (computePath pf sX sY eX eY).1
      if useCache ∧ 0 < path.length then
        let cache1 := if cacheMaxSize ≤ cache.length then cache.tail else cache
        (path, cache1 ++ [(key, path)])
      else (path, cache)

/-! ### Reference-level model of `findPath` result arrays

For the defensive-copy claim the identity of the returned arrays matters.
`RefState` models the JS heap of waypoint arrays: each array is a reference
(a natural number) into a store, the cache maps keys to references, a cache
hit allocates a fresh clone (`[...cached]`), and a miss stores and returns
the array built by `_computePath`. -/

structure RefState where
  arrays : ℕ → List Wp
  next : ℕ
  cache : List ((ℤ × ℤ × ℤ × ℤ) × ℕ)

/-- Allocate a fresh array object holding `v`. -/
def alloc (s : RefState) (v : List Wp) : ℕ × RefState :=
  (s.next,
    { s with arrays := fun i => if i = s.next then v else s.arrays i,
             next := s.next + 1 })

/-- Mutate the array object `r` in place (model of caller-side mutation of a
returned array). -/
def writeArr (s : RefState) (r : ℕ) (v : List Wp) : RefState :=
  { s with arrays := fun i => if i = r then v else s.arrays i }

/-- Embedding of `Pathfinder.findPath` at the reference level: identical
control flow to `findPath`, but returning the reference of the returned
array.  `return []` and `_computePath`'s result allocate fresh arrays; a
cache hit allocates a fresh clone of the cached array; a stored result is
the very array returned to the caller. -/
def findPathRef (pf : Pathfinder) (s : RefState)
    (startX startY endX endY : ℤ) (useCache : Bool) : ℕ × RefState :=
  let sX := mfloor startX
  let sY := mfloor startY
  let eX := mfloor endX
  let eY := mfloor endY
  if sX = eX ∧ sY = eY then alloc s []
  else
    let key := (sX, sY, eX, eY)
    match (if useCache then s.cache.lookup key else none) with
    | some r => alloc s (s.arrays r)
    | none =>
      let path := (computePath pf sX sY eX eY).1
      let out := alloc s path
      if useCache ∧ 0 < path.length then
        let c1 := if cacheMaxSize ≤ out.2.cache.length then out.2.cache.tail
                  else out.2.cache
        (out.1, { out.2 with cache := c1 ++ [(key, out.1)] })
      else out

/-! ### SpatialHash

Entity coordinates, sizes, the cell size and query radii are continuous JS
numbers; they are modelled as integers in a fixed fractional unit (`unit`
being the representation of the JS number `1`), since the only operations the
source performs — flooring division by `cellSize` and squared-distance
comparison — are exact and unit-invariant.  Entities are mutable objects;
they are modelled as identifiers `ℕ` with their fields (`x`, `y`, `size`,
`_spatialKeys`) held in the state.  A JS `Set` of entities is an
insertion-ordered duplicate-free list of identifiers; `Map` buckets are a
total function from cell keys to such lists (a missing bucket is the empty
list; the source's deletion of emptied buckets is unobservable here).  The
`live` field is bookkeeping for the specification's notion of a
currently-live, non-removed entity; it is not part of the source state. -/

/-- State of one `SpatialHash` together with the entity objects it indexes. -/
structure SHState where
  unit : ℤ
  cellSize : ℤ
  buckets : ℤ × ℤ → List ℕ
  posx : ℕ → ℤ
  posy : ℕ → ℤ
  esize : ℕ → ℤ
  keys : ℕ → Option (List (ℤ × ℤ))
  live : ℕ → Bool

/-- The integer interval `[a, b]` as a list (a JS `for (v = a; v <= b; v++)`
loop; empty when `b < a`). -/
def intRange (a b : ℤ) : List ℤ :=
  (List.range (b + 1 - a).toNat).map (fun n : ℕ => a + (n : ℤ))

/-- Embedding of `SpatialHash._getKey`: `(floor(x / cellSize), floor(y / cellSize))`. -/
def getKey (cs : ℤ) (x y : ℤ) : ℤ × ℤ := (Int.fdiv x cs, Int.fdiv y cs)

/-- The JS expression `entity.size || 1`: a zero (falsy) size defaults to the
number `1` (represented by `unit`). -/
def sizeOr1 (unit s : ℤ) : ℤ := if s = 0 then unit else s

/-- Embedding of `SpatialHash._getCellsForEntity`: all cell keys from
`floor(x / cellSize)` to `floor((x + size) / cellSize)` inclusive, outer loop
over `y`, inner over `x`. -/
def cellsFor (cs unit x y s : ℤ) : List (ℤ × ℤ) :=
  let sz := sizeOr1 unit s
  let minX := Int.fdiv x cs
  let minY := Int.fdiv y cs
  let maxX := Int.fdiv (x + sz) cs
  let maxY := Int.fdiv (y + sz) cs
  (intRange minY maxY).flatMap (fun cy => (intRange minX maxX).map (fun cx => (cx, cy)))

/-- The recorded cell keys of entity `i` computed from its current fields. -/
def cellsForE (st : SHState) (i : ℕ) : List (ℤ × ℤ) :=
  cellsFor st.cellSize st.unit (st.posx i) (st.posy i) (st.esize i)

/-- JS `Set.add`: append the entity if not already a member. -/
def bucketAdd (l : List ℕ) (i : ℕ) : List ℕ := if i ∈ l then l else l ++ [i]

/-- JS `Set.delete`: remove the entity (sets are duplicate-free, so this is a
filter). -/
def bucketDel (l : List ℕ) (i : ℕ) : List ℕ := l.filter (fun j => j ≠ i)

/-- The `cells.forEach(key => bucket.add(entity))` loop of `insert`/`update`. -/
def addToBuckets (b : ℤ × ℤ → List ℕ) (cells : List (ℤ × ℤ)) (i : ℕ) :
    ℤ × ℤ → List ℕ :=
  cells.foldl (fun b k => fun k' => if k' = k then bucketAdd (b k) i else b k') b

/-- The `keys.forEach(key => bucket.delete(entity))` loop of `remove`/`update`. -/
def delFromBuckets (b : ℤ × ℤ → List ℕ) (cells : List (ℤ × ℤ)) (i : ℕ) :
    ℤ × ℤ → List ℕ :=
  cells.foldl (fun b k => fun k' => if k' = k then bucketDel (b k) i else b k') b

/-- Embedding of `SpatialHash.insert`: add the entity to every overlapped
bucket and record the key list on the entity (`entity._spatialKeys = cells`). -/
def shInsert (st : SHState) (i : ℕ) : SHState :=
  let cells := cellsForE st i
  { st with buckets := addToBuckets st.buckets cells i,
            keys := fun j => if j = i then some cells else st.keys j }

/-- Embedding of `SpatialHash.remove`: if the entity records keys, delete it
from each recorded bucket and null the record; otherwise do nothing. -/
def shRemove (st : SHState) (i : ℕ) : SHState :=
  match st.keys i with
  | none => st
  | some ks =>
    { st with buckets := delFromBuckets st.buckets ks i,
              keys := fun j => if j = i then none else st.keys j }

/-- Embedding of `SpatialHash.update`: compare the recorded keys (defaulting
to the single `_getKey` cell) with the freshly computed ones; when unchanged
do nothing, otherwise move the entity between buckets and re-record. -/
def shUpdate (st : SHState) (i : ℕ) : SHState :=
  let oldKeys := (st.keys i).getD [getKey st.cellSize (st.posx i) (st.posy i)]
  let newKeys := cellsForE st i
  if oldKeys = newKeys then st
  else
    { st with
        buckets := addToBuckets (delFromBuckets st.buckets oldKeys i) newKeys i,
        keys := fun j => if j = i then some newKeys else st.keys j }

/-- Client operations on the index, per the documented entity lifecycle:
creation registers via `insert`, every position change is followed by
`update`, death calls `remove`. -/
inductive SHOp where
  | insert (i : ℕ) (x y s : ℤ)
  | moveUpdate (i : ℕ) (x y : ℤ)
  | remove (i : ℕ)
deriving DecidableEq

/-- Operational semantics of one lifecycle operation: `insert` initialises
the entity's fields then calls `SpatialHash.insert`; `moveUpdate` writes the
entity's position then calls `SpatialHash.update`; `remove` calls
`SpatialHash.remove`.  The `live` flag tracks the specification's
currently-live set. -/
def shStep (st : SHState) : SHOp → SHState
  | .insert i x y s =>
    let st1 := { st with
      posx := fun j => if j = i then x else st.posx j,
      posy := fun j => if j = i then y else st.posy j,
      esize := fun j => if j = i then s else st.esize j }
    let st2 := shInsert st1 i
    { st2 with live := fun j => if j = i then true else st.live j }
  | .moveUpdate i x y =>
    let st1 := { st with
      posx := fun j => if j = i then x else st.posx j,
      posy := fun j => if j = i then y else st.posy j }
    shUpdate st1 i
  | .remove i =>
    let st1 := shRemove st i
    { st1 with live := fun j => if j = i then false else st.live j }

/-- Run a list of lifecycle operations. -/
def shRun (st : SHState) (ops : List SHOp) : SHState := ops.foldl shStep st

/-- The empty index with a given unit and cell size. -/
def shInit (unit cs : ℤ) : SHState :=
  { unit := unit, cellSize := cs, buckets := fun _ => [],
    posx := fun _ => 0, posy := fun _ => 0, esize := fun _ => 0,
    keys := fun _ => none, live := fun _ => false }

/-- Well-usedness of one operation, following the documented lifecycle:
`insert` only registers a fresh (not-live, unrecorded) entity with a
non-negative size, `update` is only invoked on a live entity; `remove` is
unrestricted. -/
def okOp (st : SHState) : SHOp → Bool
  | .insert i _ _ s => !st.live i && (st.keys i).isNone && decide (0 ≤ s)
  | .moveUpdate i _ _ => st.live i
  | .remove _ => true

/-- Well-usedness of an operation sequence from a given state. -/
def wellUsed : SHState → List SHOp → Bool
  | _, [] => true
  | st, op :: rest => okOp st op && wellUsed (shStep st op) rest

/-- Entity identifiers mentioned by an operation sequence. -/
def opsIds : List SHOp → List ℕ
  | [] => []
  | .insert i _ _ _ :: rest => i :: opsIds rest
  | .moveUpdate i _ _ :: rest => i :: opsIds rest
  | .remove i :: rest => i :: opsIds rest

/-- Embedding of `SpatialHash.query`: scan the rectangle of cells covering
the circle, filtering each bucket's entities by squared distance
(`dx*dx + dy*dy <= range*range`), pushing in scan order. -/
def shQuery (st : SHState) (x y r : ℤ) : List ℕ :=
  let sX := Int.fdiv (x - r) st.cellSize
  let eX := Int.fdiv (x + r) st.cellSize
  let sY := Int.fdiv (y - r) st.cellSize
  let eY := Int.fdiv (y + r) st.cellSize
  (intRange sY eY).flatMap (fun cy =>
    (intRange sX eX).flatMap (fun cx =>
      (st.buckets (cx, cy)).filter (fun i =>
        (st.posx i - x) * (st.posx i - x) + (st.posy i - y) * (st.posy i - y)
          ≤ r * r)))

/-! ## Concrete maps used by counterexamples and witnesses -/

/-- A fully passable 2×2 map. -/
def pf2 : Pathfinder :=
  { width := 2, height := 2, map := [[true, true], [true, true]] }

/-- A 6×6 map whose only impassable tile is `(5,5)`. -/
def pf6 : Pathfinder :=
  { width := 6, height := 6,
    map := [[true, true, true, true, true, true],
            [true, true, true, true, true, true],
            [true, true, true, true, true, true],
            [true, true, true, true, true, true],
            [true, true, true, true, true, true],
            [true, true, true, true, true, false]] }

/-- A 3×2 map whose only impassable tile is `(1,1)`. -/
def pf32 : Pathfinder :=
  { width := 3, height := 2, map := [[true, true, true], [true, false, true]] }

/-! ## Neighbour generation lemmas -/

/-- Characterisation of `getNeighbors` membership: every produced neighbour
comes from one of the eight direction records, is in bounds, and (for
diagonals) passed the corner-cutting filter. -/
theorem mem_getNeighbors {pf : Pathfinder} {x y : ℤ} {nb : Neighbor}
    (hmem : nb ∈ getNeighbors pf x y) :
    ∃ d ∈ directions,
      ¬(S < d.2.2 ∧ isDiagonalPassable pf x y d.1 d.2.1 = false) ∧
      0 ≤ x + d.1 ∧ x + d.1 < pf.width ∧ 0 ≤ y + d.2.1 ∧ y + d.2.1 < pf.height ∧
      nb = ⟨x + d.1, y + d.2.1, d.2.2⟩ := by
  rw [getNeighbors, List.mem_filterMap] at hmem
  obtain ⟨d, hd, hsome⟩ := hmem
  refine ⟨d, hd, ?_⟩
  simp only at hsome
  split at hsome
  · split at hsome
    · exact absurd hsome (by simp)
    · rename_i hb hf
      exact ⟨hf, hb.1, hb.2.1, hb.2.2.1, hb.2.2.2, (Option.some_inj.mp hsome).symm⟩
  · exact absurd hsome (by simp)

/-! ## C1 -/

/-- C1, counterexample.  The search's diagonal edge cost is the literal
`1.414` (the value `cost1414` in `1/S` units, i.e. the rational `707/500`),
which is not `√2` since `(707/500)^2 ≠ 2`; and the octile heuristic computed
with `Math.SQRT2` strictly exceeds that cost at `dx = dy = 1`, even though a
single legal diagonal step of cost `1.414` (the neighbour `(1,1)` of `(0,0)`
on the fully passable map `pf2`) reaches such a goal.  The heuristic thus
overestimates the true optimal cost, is not admissible for the code's edge
costs, and the claimed cost/optimality statement is false. -/
theorem diagonal_cost_not_sqrt2_and_heuristic_inadmissible :
    getNeighbors pf2 0 0 = [⟨1, 0, cost1⟩, ⟨0, 1, cost1⟩, ⟨1, 1, cost1414⟩] ∧
    (cost1414 : ℚ) = (707 / 500) * (S : ℚ) ∧
    ((707 / 500 : ℚ)) ^ 2 ≠ 2 ∧
    cost1414 < octileS 1 1 := by
  refine ⟨by decide, ?_, by norm_num, by decide⟩
  rw [cost1414, S]
  norm_num

/-- C1, amended: every cardinal neighbour produced by `getNeighbors` has cost
`1.0` and every diagonal neighbour the literal cost `1.414` (not `√2`), and
the octile heuristic (computed with `Math.SQRT2`) strictly exceeds the
diagonal edge cost at tile distance `(1,1)`, so it is not admissible for the
code's edge costs and the search is not guaranteed cost-optimal. -/
theorem neighbor_costs_amended (pf : Pathfinder) (x y : ℤ) (nb : Neighbor)
    (hmem : nb ∈ getNeighbors pf x y) :
    ((nb.x - x).natAbs + (nb.y - y).natAbs = 1 → nb.cost = cost1) ∧
    ((nb.x - x).natAbs = 1 ∧ (nb.y - y).natAbs = 1 → nb.cost = cost1414) ∧
    cost1414 < octileS 1 1 := by
  obtain ⟨d, hd, _hfilter, _hb1, _hb2, _hb3, _hb4, hnb⟩ := mem_getNeighbors hmem
  subst hnb
  refine ⟨?_, ?_, by decide⟩ <;> fin_cases hd <;> simp <;> try omega

/-- C1, amended, witness: the diagonal neighbour of `(0,0)` on `pf2` has cost
`1.414`, and the heuristic exceeds it. -/
theorem neighbor_costs_amended_witness :
    (Neighbor.mk 1 1 cost1414 ∈ getNeighbors pf2 0 0 ∧
      ((1 : ℤ) - 0).natAbs = 1 ∧ ((1 : ℤ) - 0).natAbs = 1) ∧
    (Neighbor.mk 1 1 cost1414).cost = cost1414 ∧ cost1414 < octileS 1 1 :=
  ⟨⟨by decide, by decide, by decide⟩,
    (neighbor_costs_amended pf2 0 0 ⟨1, 1, cost1414⟩ (by decide)).2.1
      ⟨by decide, by decide⟩,
    (neighbor_costs_amended pf2 0 0 ⟨1, 1, cost1414⟩ (by decide)).2.2⟩

/-! ## C6 -/

/-- C6, counterexample.  On `pf32` (3×2, only `(1,1)` impassable) the search
from tile `(0,0)` to tile `(2,1)` reconstructs `(1,0), (2,0), (2,1)` — no
corner-cutting diagonal — but smoothing's Bresenham line of sight from
`(1,0)` to `(2,1)` steps both coordinates at once, skipping tiles `(2,0)` and
`(1,1)`, so the returned path contains the consecutive diagonal step from the
centre of `(1,0)` to the centre of `(2,1)` although its orthogonal neighbour
tile `(1,1)` is impassable. -/
theorem smoothed_path_corner_cut_counterexample :
    (computePath pf32 0 0 2 1).1 = [(center 1, center 0), (center 2, center 1)] ∧
    isPassable pf32 1 1 = false ∧
    mfloor (center 2) - mfloor (center 1) = 1 ∧
    mfloor (center 1) - mfloor (center 0) = 1 := by
  refine ⟨by decide, by decide, by decide, by decide⟩

/-- C6, amended: the A* neighbour generation itself never yields a
corner-cutting diagonal — every diagonal neighbour produced by
`getNeighbors` has both orthogonal neighbour tiles passable — but the
smoothing pass can reintroduce such a diagonal step into the returned path
(see the counterexample). -/
theorem no_corner_cut_neighbors_amended (pf : Pathfinder) (x y : ℤ)
    (nb : Neighbor) (hmem : nb ∈ getNeighbors pf x y)
    (hdx : (nb.x - x).natAbs = 1) (hdy : (nb.y - y).natAbs = 1) :
    isPassable pf nb.x y = true ∧ isPassable pf x nb.y = true := by
  obtain ⟨d, hd, hfilter, _hb1, _hb2, _hb3, _hb4, hnb⟩ := mem_getNeighbors hmem
  subst hnb
  fin_cases hd <;> simp at hdx hdy ⊢ <;>
    first
    | omega
    | · rw [not_and, Bool.not_eq_false] at hfilter
        have h2 := hfilter (by decide)
        rw [isDiagonalPassable, Bool.and_eq_true] at h2
        exact ⟨h2.1, h2.2⟩

/-- C6, amended, witness: the diagonal neighbour `(1,1)` of `(0,0)` on `pf2`
has both orthogonal tiles passable. -/
theorem no_corner_cut_neighbors_amended_witness :
    isPassable pf2 1 0 = true ∧ isPassable pf2 0 1 = true :=
  no_corner_cut_neighbors_amended pf2 0 0 ⟨1, 1, cost1414⟩ (by decide)
    (by decide) (by decide)

/-! ## C5 -/

/-- The retargeting step applied to a non-empty best is still non-empty. -/
theorem retargetStep_isSome (pf : Pathfinder) (sX sY : ℤ) (p : Neighbor × ℕ)
    (n : Neighbor) : (retargetStep pf sX sY (some p) n).isSome = true := by
  rw [retargetStep]
  split
  · simp only
    split <;> simp
  · simp

/-- Folding the retargeting step from a non-empty best yields a non-empty
result. -/
theorem retargetFold_isSome (pf : Pathfinder) (sX sY : ℤ) :
    ∀ (l : List Neighbor) (p : Neighbor × ℕ),
      ∃ q, l.foldl (retargetStep pf sX sY) (some p) = some q := by
  intro l
  induction l with
  | nil => exact fun p => ⟨p, rfl⟩
  | cons n l ih =>
    intro p
    have h := retargetStep_isSome pf sX sY p n
    obtain ⟨q, hq⟩ := Option.isSome_iff_exists.mp h
    simpa [hq] using ih q

/-- The retargeting fold returns `none` exactly when it started empty and no
scanned neighbour is passable. -/
theorem retargetFold_none (pf : Pathfinder) (sX sY : ℤ) :
    ∀ (l : List Neighbor) (acc : Option (Neighbor × ℕ)),
      l.foldl (retargetStep pf sX sY) acc = none ↔
        acc = none ∧ ∀ n ∈ l, isPassable pf n.x n.y = false := by
  intro l
  induction l with
  | nil => simp
  | cons n l ih =>
    intro acc
    rw [List.foldl_cons, ih]
    by_cases hp : isPassable pf n.x n.y = true
    · constructor
      · rintro ⟨hstep, -⟩
        cases acc with
        | none => simp [retargetStep, hp] at hstep
        | some p =>
          have := retargetStep_isSome pf sX sY p n
          rw [hstep] at this
          cases this
      · rintro ⟨-, hall⟩
        exact absurd (hall n (List.mem_cons_self n l)) (by simp [hp])
    · have hstep : retargetStep pf sX sY acc n = acc := by
        rw [retargetStep]
        split
        · exact absurd (by assumption) hp
        · rfl
      rw [hstep]
      constructor
      · rintro ⟨h1, h2⟩
        refine ⟨h1, fun m hm => ?_⟩
        rcases List.mem_cons.mp hm with h | h
        · subst h
          simpa using hp
        · exact h2 m h
      · rintro ⟨h1, h2⟩
        exact ⟨h1, fun m hm => h2 m (List.mem_cons_of_mem n hm)⟩

/-- Fold invariant for the retargeting loop: a non-empty result holds a
passable candidate with its recorded Manhattan distance, drawn from the
ambient list, and that distance is minimal among the scanned passable
neighbours and no larger than the starting best. -/
theorem retargetFold_some (pf : Pathfinder) (sX sY : ℤ) (L0 : List Neighbor) :
    ∀ (l : List Neighbor) (acc : Option (Neighbor × ℕ)),
      (∀ p, acc = some p →
        isPassable pf p.1.x p.1.y = true ∧ p.2 = manh sX sY p.1 ∧ p.1 ∈ L0) →
      (∀ n ∈ l, n ∈ L0) →
      ∀ b, l.foldl (retargetStep pf sX sY) acc = some b →
        isPassable pf b.1.x b.1.y = true ∧ b.2 = manh sX sY b.1 ∧ b.1 ∈ L0 ∧
        (∀ n ∈ l, isPassable pf n.x n.y = true → b.2 ≤ manh sX sY n) ∧
        (∀ p, acc = some p → b.2 ≤ p.2) := by
  intro l
  induction l with
  | nil =>
    intro acc hacc _ b hb
    rw [List.foldl_nil] at hb
    obtain ⟨h1, h2, h3⟩ := hacc b hb
    refine ⟨h1, h2, h3, by simp, fun p hp => ?_⟩
    rw [hb] at hp
    cases hp
    exact le_refl _
  | cons n l ih =>
    intro acc hacc hsub b hb
    rw [List.foldl_cons] at hb
    by_cases hp : isPassable pf n.x n.y = true
    · have hnL0 : n ∈ L0 := hsub n (List.mem_cons_self n l)
      cases acc with
      | none =>
        have hstep : retargetStep pf sX sY none n = some (n, manh sX sY n) := by
          simp [retargetStep, hp]
        rw [hstep] at hb
        have hres := ih (some (n, manh sX sY n))
          (fun p hp' => by cases hp'; exact ⟨hp, rfl, hnL0⟩)
          (fun m hm => hsub m (List.mem_cons_of_mem n hm)) b hb
        refine ⟨hres.1, hres.2.1, hres.2.2.1, fun m hm hpm => ?_, by simp⟩
        rcases List.mem_cons.mp hm with h | h
        · rw [h]
          exact hres.2.2.2.2 (n, manh sX sY n) rfl
        · exact hres.2.2.2.1 m h hpm
      | some a =>
        by_cases hlt : manh sX sY n < a.2
        · have hstep : retargetStep pf sX sY (some a) n = some (n, manh sX sY n) := by
            simp [retargetStep, hp, hlt]
          rw [hstep] at hb
          have hres := ih (some (n, manh sX sY n))
            (fun p hp' => by cases hp'; exact ⟨hp, rfl, hnL0⟩)
            (fun m hm => hsub m (List.mem_cons_of_mem n hm)) b hb
          refine ⟨hres.1, hres.2.1, hres.2.2.1, fun m hm hpm => ?_, fun p hp' => ?_⟩
          · rcases List.mem_cons.mp hm with h | h
            · rw [h]
              exact hres.2.2.2.2 (n, manh sX sY n) rfl
            · exact hres.2.2.2.1 m h hpm
          · cases hp'
            exact le_of_lt (lt_of_le_of_lt (hres.2.2.2.2 (n, manh sX sY n) rfl) hlt)
        · have hstep : retargetStep pf sX sY (some a) n = some a := by
            simp [retargetStep, hp, hlt]
          rw [hstep] at hb
          have hres := ih (some a) (fun p hp' => by cases hp'; exact hacc a rfl)
            (fun m hm => hsub m (List.mem_cons_of_mem n hm)) b hb
          refine ⟨hres.1, hres.2.1, hres.2.2.1, fun m hm hpm => ?_, fun p hp' => ?_⟩
          · rcases List.mem_cons.mp hm with h | h
            · subst h
              exact le_trans (hres.2.2.2.2 a rfl) (not_lt.mp hlt)
            · exact hres.2.2.2.1 m h hpm
          · cases hp'
            exact hres.2.2.2.2 a rfl
    · have hstep : retargetStep pf sX sY acc n = acc := by
        rw [retargetStep]
        split
        · exact absurd (by assumption) hp
        · rfl
      rw [hstep] at hb
      have hres := ih acc hacc (fun m hm => hsub m (List.mem_cons_of_mem n hm)) b hb
      refine ⟨hres.1, hres.2.1, hres.2.2.1, fun m hm hpm => ?_, hres.2.2.2.2⟩
      rcases List.mem_cons.mp hm with h | h
      · subst h
        exact absurd hpm hp
      · exact hres.2.2.2.1 m h hpm

/-- C5, counterexample.  On `pf6` the destination `(5,5)` is impassable and
the code retargets the search to `(4,4)` — a diagonal neighbour of the
destination, not one of its four cardinal neighbours — because the
retargeting loop scans all eight `getNeighbors` candidates and `(4,4)` has
the smallest Manhattan distance to the start `(0,0)`. -/
theorem retarget_not_4neighbor_counterexample :
    retargetEnd pf6 0 0 5 5 = some (4, 4) ∧
    isPassable pf6 5 5 = false ∧
    ((4, 4) : ℤ × ℤ) ∉ ([(4, 5), (6, 5), (5, 4), (5, 6)] : List (ℤ × ℤ)) := by
  exact ⟨by decide, by decide, by decide⟩

/-- C5, amended: for an impassable destination the search retargets to the
passable candidate of minimal Manhattan distance to the start among the
eight corner-cut-filtered `getNeighbors` of the destination (not only the
four cardinal neighbours), and `_computePath` returns the empty path when no
such candidate is passable. -/
theorem retarget_nearest_neighbor_amended (pf : Pathfinder) (sX sY eX eY : ℤ)
    (himp : isPassable pf eX eY = false) :
    (retargetEnd pf sX sY eX eY = none →
      (∀ nb ∈ getNeighbors pf eX eY, isPassable pf nb.x nb.y = false) ∧
      computePath pf sX sY eX eY = ([], 0, false)) ∧
    (∀ b, retargetEnd pf sX sY eX eY = some b →
      ∃ nb ∈ getNeighbors pf eX eY, nb.x = b.1 ∧ nb.y = b.2 ∧
        isPassable pf nb.x nb.y = true ∧
        ∀ m ∈ getNeighbors pf eX eY, isPassable pf m.x m.y = true →
          manh sX sY nb ≤ manh sX sY m) := by
  constructor
  · intro hnone
    rw [retargetEnd, Option.map_eq_none'] at hnone
    have hall := ((retargetFold_none pf sX sY _ none).mp hnone).2
    refine ⟨hall, ?_⟩
    rw [computePath]
    simp only [himp, Bool.false_eq_true, if_false]
    rw [retargetEnd, Option.map_eq_none'.mpr hnone]
  · intro b hsome
    rw [retargetEnd, Option.map_eq_some'] at hsome
    obtain ⟨bm, hfold, hbeq⟩ := hsome
    have hres := retargetFold_some pf sX sY (getNeighbors pf eX eY)
      (getNeighbors pf eX eY) none (by simp) (fun n hn => hn) bm hfold
    refine ⟨bm.1, hres.2.2.1, ?_, ?_, hres.1, fun m hm hpm => ?_⟩
    · rw [← hbeq]
    · rw [← hbeq]
    · have := hres.2.2.2.1 m hm hpm
      rw [hres.2.1] at this
      exact this

/-- C5, amended, witness: instantiated on `pf6` with start `(0,0)` and
impassable destination `(5,5)`, the retarget result `(4,4)` is a passable
filtered neighbour of minimal Manhattan distance to the start. -/
theorem retarget_nearest_neighbor_amended_witness :
    ∃ nb ∈ getNeighbors pf6 5 5, nb.x = 4 ∧ nb.y = 4 ∧
      isPassable pf6 nb.x nb.y = true ∧
      ∀ m ∈ getNeighbors pf6 5 5, isPassable pf6 m.x m.y = true →
        manh 0 0 nb ≤ manh 0 0 m :=
  (retarget_nearest_neighbor_amended pf6 0 0 5 5 (by decide)).2 (4, 4) (by decide)

/-! ## C8 -/

/-- The number of executed loop bodies of `aloop` never exceeds the fuel. -/
theorem aloop_count_le (pf : Pathfinder) (endX endY : ℤ) :
    ∀ (fuel : ℕ) (st : AState), (aloop pf endX endY fuel st).2.1 ≤ fuel := by
  intro fuel
  induction fuel with
  | zero =>
    intro st
    rw [aloop]
    split <;> simp
  | succ n ih =>
    intro st
    rw [aloop]
    split
    · simp
    · split
      · simp
      · split
        · simpa using Nat.succ_le_succ (ih _)
        · split
          · simp
          · simpa using Nat.succ_le_succ (ih _)

/-- C8: the search always terminates within the iteration cap — every
`_computePath` run executes at most `MAX_ITERATIONS = 2000` loop bodies
(node expansions), and a loop entered with the cap exhausted (the
`iterations > MAX_ITERATIONS` branch) aborts immediately with an empty
path.  Totality of `findPath` on every input is witnessed by the embedding
itself being a total function whose loop fuel is the cap. -/
theorem computepath_iteration_cap (pf : Pathfinder) (sX sY eX eY : ℤ) :
    (computePath pf sX sY eX eY).2.1 ≤ MAXITER ∧
    ∀ (ex ey : ℤ) (st : AState), (aloop pf ex ey 0 st).1 = [] := by
  constructor
  · rw [computePath]
    split
    · simp
    · exact aloop_count_le pf _ _ MAXITER _
  · intro ex ey st
    rw [aloop]
    split <;> rfl

/-! ## C7 -/

/-- One `findPath` call: continuous tile-space arguments (in `1/S` units)
and the cache flag. -/
structure CallArgs where
  sx : ℤ
  sy : ℤ
  ex : ℤ
  ey : ℤ
  useCache : Bool

/-- Run a sequence of `findPath` calls against one pathfinder, threading the
cache through. -/
def runCalls (pf : Pathfinder) : Cache → List CallArgs → Cache
  | c, [] => c
  | c, a :: rest => runCalls pf (findPath pf c a.sx a.sy a.ex a.ey a.useCache).2 rest

/-- A single `findPath` call keeps the cache within `cacheMaxSize`. -/
theorem findPath_cache_le (pf : Pathfinder) (cache : Cache)
    (sx sy ex ey : ℤ) (u : Bool) (hle : cache.length ≤ cacheMaxSize) :
    (findPath pf cache sx sy ex ey u).2.length ≤ cacheMaxSize := by
  simp only [findPath]
  by_cases hsame : mfloor sx = mfloor ex ∧ mfloor sy = mfloor ey
  · rw [if_pos hsame]
    exact hle
  · rw [if_neg hsame]
    cases u with
    | false =>
      simp only [Bool.false_eq_true, if_false]
      simpa using hle
    | true =>
      rw [if_pos rfl]
      cases hlk : List.lookup (mfloor sx, mfloor sy, mfloor ex, mfloor ey) cache with
      | some p =>
        simp only [hlk]
        exact hle
      | none =>
        simp only [hlk]
        by_cases hpos :
            0 < (computePath pf (mfloor sx) (mfloor sy) (mfloor ex) (mfloor ey)).1.length
        · rw [if_pos ⟨trivial, hpos⟩]
          dsimp only
          by_cases hfull : cacheMaxSize ≤ cache.length
          · rw [if_pos hfull]
            simp only [List.length_append, List.length_cons, List.length_nil]
            rw [List.length_tail]
            simp only [cacheMaxSize] at hfull hle ⊢
            omega
          · rw [if_neg hfull]
            simp only [List.length_append, List.length_cons, List.length_nil]
            simp only [cacheMaxSize] at hfull hle ⊢
            omega
        · rw [if_neg (by simp [hpos])]
          exact hle

/-- C7: the path cache is bounded and FIFO.  (a) Over any sequence of
`findPath` calls from an empty cache, the cache never holds more than
`cacheMaxSize = 500` entries.  (b) `useCache = false` bypasses the cache
entirely: the cache is unchanged and the result is computed afresh.  (c) On
a cache miss with distinct start/end tiles, an empty computed path is not
memoized, and a non-empty one is appended to the insertion-ordered cache,
first evicting the oldest entry (the head) when the cache is full. -/
theorem findpath_cache_fifo_bounded (pf : Pathfinder) :
    (∀ calls : List CallArgs, (runCalls pf [] calls).length ≤ cacheMaxSize) ∧
    (∀ (cache : Cache) (sx sy ex ey : ℤ),
      (findPath pf cache sx sy ex ey false).2 = cache ∧
      (findPath pf cache sx sy ex ey false).1 =
        (if mfloor sx = mfloor ex ∧ mfloor sy = mfloor ey then []
         else (computePath pf (mfloor sx) (mfloor sy) (mfloor ex) (mfloor ey)).1)) ∧
    (∀ (cache : Cache) (sx sy ex ey : ℤ),
      ¬(mfloor sx = mfloor ex ∧ mfloor sy = mfloor ey) →
      cache.lookup (mfloor sx, mfloor sy, mfloor ex, mfloor ey) = none →
      ((computePath pf (mfloor sx) (mfloor sy) (mfloor ex) (mfloor ey)).1 = [] →
        (findPath pf cache sx sy ex ey true).2 = cache) ∧
      ((computePath pf (mfloor sx) (mfloor sy) (mfloor ex) (mfloor ey)).1 ≠ [] →
        (findPath pf cache sx sy ex ey true).2 =
          (if cacheMaxSize ≤ cache.length then cache.tail else cache) ++
            [((mfloor sx, mfloor sy, mfloor ex, mfloor ey),
              (computePath pf (mfloor sx) (mfloor sy) (mfloor ex)
                (mfloor ey)).1)])) := by
  refine ⟨?_, ?_, ?_⟩
  · intro calls
    have hgen : ∀ (calls : List CallArgs) (c : Cache),
        c.length ≤ cacheMaxSize → (runCalls pf c calls).length ≤ cacheMaxSize := by
      intro calls
      induction calls with
      | nil => exact fun c h => h
      | cons a rest ih =>
        intro c hc
        exact ih _ (findPath_cache_le pf c a.sx a.sy a.ex a.ey a.useCache hc)
    exact hgen calls [] (by simp [cacheMaxSize])
  · intro cache sx sy ex ey
    rw [findPath]
    split
    · rename_i hsame
      simp [hsame]
    · rename_i hsame
      simp only [if_neg hsame]
      constructor
      · split
        · rename_i heq
          simp at heq
        · rfl
      · split
        · rename_i heq
          simp at heq
        · rfl
  · intro cache sx sy ex ey hsame hmiss
    rw [findPath]
    simp only [if_neg hsame, if_pos rfl, hmiss]
    constructor
    · intro hempty
      simp [hempty]
    · intro hne
      have hpos : 0 < (computePath pf (mfloor sx) (mfloor sy) (mfloor ex)
          (mfloor ey)).1.length := List.length_pos.mpr hne
      simp [hpos]

/-- C7, witness: a concrete miss on an empty cache memoizes the non-empty
computed path by appending it. -/
theorem findpath_cache_fifo_bounded_witness :
    (findPath pf32 [] 0 0 (2 * S) (1 * S) true).2 =
      [(((0 : ℤ), (0 : ℤ), (2 : ℤ), (1 : ℤ)),
        [(center 1, center 0), (center 2, center 1)])] := by
  have h := ((findpath_cache_fifo_bounded pf32).2.2 [] 0 0 (2 * S) (1 * S)
    (by decide) (by decide)).2 (by decide)
  simpa using h

/-! ## C2 -/

/-- Association-list lookup over an append scans left to right. -/
theorem lookup_append {α β : Type} [BEq α] (k : α) (l1 l2 : List (α × β)) :
    List.lookup k (l1 ++ l2) = ((List.lookup k l1).or (List.lookup k l2)) := by
  induction l1 with
  | nil => simp
  | cons a l1 ih =>
    by_cases hk : k == a.1
    · simp [List.lookup, hk]
    · simp only [List.cons_append, List.lookup, hk]
      exact ih

/-- A key not found in a list is not found in its tail. -/
theorem lookup_tail_none {α β : Type} [BEq α] (k : α) (l : List (α × β))
    (h : List.lookup k l = none) : List.lookup k l.tail = none := by
  cases l with
  | nil => simp
  | cons a l =>
    rw [List.lookup] at h
    split at h
    · cases h
    · exact h

/-- C2: two successive `findPath` calls with identical arguments and
`useCache = true` return structurally equal waypoint arrays that are
distinct array objects, so mutating either returned array never affects the
other.  The first call either misses (storing the array it returns) or hits
(returning a fresh clone); the second call's result is always a freshly
allocated array, and a hit clones the stored waypoints, giving structural
equality. -/
theorem findpath_defensive_copy (pf : Pathfinder) (s : RefState)
    (sx sy ex ey : ℤ) :
    (findPathRef pf s sx sy ex ey true).1 ≠
      (findPathRef pf (findPathRef pf s sx sy ex ey true).2 sx sy ex ey true).1 ∧
    (findPathRef pf (findPathRef pf s sx sy ex ey true).2 sx sy ex ey true).2.arrays
        (findPathRef pf s sx sy ex ey true).1 =
      (findPathRef pf (findPathRef pf s sx sy ex ey true).2 sx sy ex ey true).2.arrays
        (findPathRef pf (findPathRef pf s sx sy ex ey true).2 sx sy ex ey true).1 ∧
    (∀ v, (writeArr
        (findPathRef pf (findPathRef pf s sx sy ex ey true).2 sx sy ex ey true).2
        (findPathRef pf s sx sy ex ey true).1 v).arrays
          (findPathRef pf (findPathRef pf s sx sy ex ey true).2 sx sy ex ey true).1 =
      (findPathRef pf (findPathRef pf s sx sy ex ey true).2 sx sy ex ey true).2.arrays
        (findPathRef pf (findPathRef pf s sx sy ex ey true).2 sx sy ex ey true).1) ∧
    (∀ v, (writeArr
        (findPathRef pf (findPathRef pf s sx sy ex ey true).2 sx sy ex ey true).2
        (findPathRef pf (findPathRef pf s sx sy ex ey true).2 sx sy ex ey true).1
          v).arrays (findPathRef pf s sx sy ex ey true).1 =
      (findPathRef pf (findPathRef pf s sx sy ex ey true).2 sx sy ex ey true).2.arrays
        (findPathRef pf s sx sy ex ey true).1) := by
  have hnn : s.next ≠ s.next + 1 := by omega
  have main : (findPathRef pf s sx sy ex ey true).1 = s.next ∧
      (findPathRef pf (findPathRef pf s sx sy ex ey true).2 sx sy ex ey true).1 =
        s.next + 1 ∧
      (findPathRef pf (findPathRef pf s sx sy ex ey true).2 sx sy ex ey true).2.arrays
          s.next =
        (findPathRef pf (findPathRef pf s sx sy ex ey true).2 sx sy ex ey
          true).2.arrays (s.next + 1) := by
    by_cases hsame : mfloor sx = mfloor ex ∧ mfloor sy = mfloor ey
    · refine ⟨?_, ?_, ?_⟩ <;>
        simp [findPathRef, if_pos hsame, alloc, hnn, Ne.symm hnn]
    · cases hlk : List.lookup (mfloor sx, mfloor sy, mfloor ex, mfloor ey) s.cache with
      | some r =>
        by_cases hr : r = s.next <;>
          · refine ⟨?_, ?_, ?_⟩ <;>
              simp [findPathRef, if_neg hsame, alloc, hlk, hr, hnn, Ne.symm hnn]
      | none =>
        by_cases hpos :
            0 < (computePath pf (mfloor sx) (mfloor sy) (mfloor ex) (mfloor ey)).1.length
        · have hc1 : List.lookup (mfloor sx, mfloor sy, mfloor ex, mfloor ey)
              (if cacheMaxSize ≤ s.cache.length then s.cache.tail else s.cache) =
                none := by
            split
            · exact lookup_tail_none _ _ hlk
            · exact hlk
          refine ⟨?_, ?_, ?_⟩ <;>
            simp [findPathRef, if_neg hsame, alloc, hlk, hpos, lookup_append, hc1,
              hnn, Ne.symm hnn]
        · refine ⟨?_, ?_, ?_⟩ <;>
            simp [findPathRef, if_neg hsame, alloc, hlk, hpos, hnn, Ne.symm hnn]
  obtain ⟨h1, h2, h3⟩ := main
  have hne : (findPathRef pf s sx sy ex ey true).1 ≠
      (findPathRef pf (findPathRef pf s sx sy ex ey true).2 sx sy ex ey true).1 := by
    rw [h1, h2]
    omega
  refine ⟨hne, by rw [h1, h2]; exact h3, fun v => ?_, fun v => ?_⟩
  · rw [writeArr]
    simp only
    rw [if_neg (Ne.symm hne)]
  · rw [writeArr]
    simp only
    rw [if_neg hne]

/-! ## C9 -/

/-- C9, counterexample.  With cell size `1` and a single entity inserted at
the origin, `query(0, 0, 0)` — a radius satisfying `radius ≤ 0` — scans the
origin's bucket (the scan bounds collapse to a single cell) and the distance
filter `0 ≤ 0` passes, so the query returns the entity instead of the empty
list the claim requires. -/
theorem query_radius_zero_counterexample :
    ((0 : ℤ) ≤ 0) ∧
    shQuery (shRun (shInit 1 1) [SHOp.insert 0 0 0 1]) 0 0 0 = [0] ∧
    (shRun (shInit 1 1) [SHOp.insert 0 0 0 1]).live 0 = true := by
  exact ⟨by decide, by decide, by decide⟩

/-- C9, amended: a query with radius `r ≤ 0` returns only entities at
squared distance at most `r * r` from the centre (hence only entities within
`|r|`, in particular only entities exactly at the centre when `r = 0`); it
is not always empty. -/
theorem query_nonpositive_radius_amended (st : SHState) (x y r : ℤ)
    (hr : r ≤ 0) :
    ∀ i ∈ shQuery st x y r,
      (st.posx i - x) * (st.posx i - x) + (st.posy i - y) * (st.posy i - y)
        ≤ r * r := by
  intro i hi
  simp only [shQuery, List.mem_flatMap, List.mem_filter,
    decide_eq_true_eq] at hi
  obtain ⟨cy, -, cx, -, -, hd⟩ := hi
  exact hd

/-- C9, amended, witness: with radius `0`, the entity returned by the query
is at squared distance `0 ≤ 0` from the centre. -/
theorem query_nonpositive_radius_amended_witness :
    ((shRun (shInit 1 1) [SHOp.insert 0 0 0 1]).posx 0 - 0) *
        ((shRun (shInit 1 1) [SHOp.insert 0 0 0 1]).posx 0 - 0) +
      ((shRun (shInit 1 1) [SHOp.insert 0 0 0 1]).posy 0 - 0) *
        ((shRun (shInit 1 1) [SHOp.insert 0 0 0 1]).posy 0 - 0) ≤ 0 * 0 :=
  query_nonpositive_radius_amended (shRun (shInit 1 1) [SHOp.insert 0 0 0 1])
    0 0 0 (by decide) 0 (by decide)

/-! ## SpatialHash bucket-membership lemmas -/

/-- Membership in an integer interval list. -/
theorem mem_intRange {a lo hi : ℤ} : a ∈ intRange lo hi ↔ lo ≤ a ∧ a ≤ hi := by
  simp only [intRange, List.mem_map, List.mem_range]
  constructor
  · rintro ⟨n, hn, rfl⟩
    omega
  · rintro ⟨h1, h2⟩
    exact ⟨(a - lo).toNat, by omega, by omega⟩

/-- Membership after a JS `Set.add`. -/
theorem mem_bucketAdd {l : List ℕ} {i j : ℕ} :
    j ∈ bucketAdd l i ↔ j ∈ l ∨ j = i := by
  rw [bucketAdd]
  split
  · rename_i hmem
    constructor
    · exact Or.inl
    · rintro (h | rfl)
      · exact h
      · exact hmem
  · simp [or_comm]

/-- Membership after a JS `Set.delete`. -/
theorem mem_bucketDel {l : List ℕ} {i j : ℕ} :
    j ∈ bucketDel l i ↔ j ∈ l ∧ j ≠ i := by
  simp [bucketDel]

/-- Membership after adding an entity to every cell of a list. -/
theorem mem_addToBuckets (cells : List (ℤ × ℤ)) (i j : ℕ) :
    ∀ (b : ℤ × ℤ → List ℕ) (k : ℤ × ℤ),
      j ∈ addToBuckets b cells i k ↔ j ∈ b k ∨ (j = i ∧ k ∈ cells) := by
  induction cells with
  | nil => simp [addToBuckets]
  | cons c cells ih =>
    intro b k
    rw [addToBuckets, List.foldl_cons]
    rw [show (List.foldl _ _ cells : ℤ × ℤ → List ℕ) = addToBuckets
      (fun k' => if k' = c then bucketAdd (b c) i else b k') cells i from rfl]
    rw [ih]
    by_cases hk : k = c
    · subst hk
      simp only [eq_self_iff_true, if_true, mem_bucketAdd, List.mem_cons]
      tauto
    · simp only [if_neg hk, List.mem_cons]
      constructor
      · rintro (h | ⟨rfl, h⟩)
        · exact Or.inl h
        · exact Or.inr ⟨rfl, Or.inr h⟩
      · rintro (h | ⟨rfl, h | h⟩)
        · exact Or.inl h
        · exact absurd h hk
        · exact Or.inr ⟨rfl, h⟩

/-- Membership after deleting an entity from every cell of a list. -/
theorem mem_delFromBuckets (cells : List (ℤ × ℤ)) (i j : ℕ) :
    ∀ (b : ℤ × ℤ → List ℕ) (k : ℤ × ℤ),
      j ∈ delFromBuckets b cells i k ↔ j ∈ b k ∧ ¬(j = i ∧ k ∈ cells) := by
  induction cells with
  | nil => simp [delFromBuckets]
  | cons c cells ih =>
    intro b k
    rw [delFromBuckets, List.foldl_cons]
    rw [show (List.foldl _ _ cells : ℤ × ℤ → List ℕ) = delFromBuckets
      (fun k' => if k' = c then bucketDel (b c) i else b k') cells i from rfl]
    rw [ih]
    by_cases hk : k = c
    · subst hk
      simp only [eq_self_iff_true, if_true, mem_bucketDel, List.mem_cons]
      tauto
    · simp only [if_neg hk, List.mem_cons]
      constructor
      · rintro ⟨h1, h2⟩
        exact ⟨h1, by tauto⟩
      · rintro ⟨h1, h2⟩
        exact ⟨h1, by tauto⟩

/-! ## The SpatialHash invariant (C4) -/

/-- The specification invariant: a live entity records exactly the cell keys
computed from its current position and footprint, appears in exactly those
buckets, and has a non-negative size; a non-live entity records no keys and
appears in no bucket. -/
def SHInv (st : SHState) : Prop :=
  ∀ i : ℕ,
    (st.live i = true → st.keys i = some (cellsForE st i) ∧ 0 ≤ st.esize i) ∧
    (st.live i = false → st.keys i = none) ∧
    (∀ k, i ∈ st.buckets k ↔ (st.live i = true ∧ k ∈ cellsForE st i))

/-- The cell keys of an entity are untouched by other entities' field
updates. -/
theorem cellsForE_other {st : SHState} {i j : ℕ} (f g h : ℕ → ℤ)
    (hj : j ≠ i) :
    cellsForE { st with
        posx := fun m => if m = i then f m else st.posx m,
        posy := fun m => if m = i then g m else st.posy m,
        esize := fun m => if m = i then h m else st.esize m } j =
      cellsForE st j := by
  simp [cellsForE, hj]

/-- One well-used lifecycle operation preserves the invariant. -/
theorem SHInv_step (st : SHState) (op : SHOp) (hinv : SHInv st)
    (hok : okOp st op = true) : SHInv (shStep st op) := by
  cases op with
  | insert i x y s =>
    rw [okOp, Bool.and_eq_true, Bool.and_eq_true] at hok
    obtain ⟨⟨hnl, -⟩, hs⟩ := hok
    rw [Bool.not_eq_true'] at hnl
    rw [decide_eq_true_eq] at hs
    have hnb : ∀ k, i ∉ st.buckets k := by
      intro k hk
      have h := ((hinv i).2.2 k).mp hk
      rw [hnl] at h
      exact absurd h.1 (by simp)
    have hstep : shStep st (.insert i x y s) =
        { st with
          posx := fun m => if m = i then x else st.posx m,
          posy := fun m => if m = i then y else st.posy m,
          esize := fun m => if m = i then s else st.esize m,
          buckets := addToBuckets st.buckets
            (cellsFor st.cellSize st.unit x y s) i,
          keys := fun m => if m = i then
            some (cellsFor st.cellSize st.unit x y s) else st.keys m,
          live := fun m => if m = i then true else st.live m } := by
      simp [shStep, shInsert, cellsForE]
    rw [hstep]
    intro j
    by_cases hj : j = i
    · subst hj
      refine ⟨fun _ => ⟨?_, ?_⟩, fun hl => ?_, fun k => ?_⟩
      · simp [cellsForE]
      · simpa using hs
      · simp at hl
      · simp [mem_addToBuckets, cellsForE, hnb k]
    · refine ⟨fun hl => ?_, fun hl => ?_, fun k => ?_⟩
      · have h := (hinv j).1 (by simpa [hj] using hl)
        simp only [cellsForE] at h
        simpa [cellsForE, hj] using h
      · simpa [hj] using (hinv j).2.1 (by simpa [hj] using hl)
      · have h := (hinv j).2.2 k
        simp only [cellsForE] at h
        simpa [mem_addToBuckets, cellsForE, hj] using h
  | moveUpdate i x y =>
    rw [okOp] at hok
    obtain ⟨hkO, hsz⟩ := (hinv i).1 hok
    have hstep : shStep st (.moveUpdate i x y) =
        (if cellsForE st i = cellsFor st.cellSize st.unit x y (st.esize i) then
          { st with
            posx := fun m => if m = i then x else st.posx m,
            posy := fun m => if m = i then y else st.posy m }
        else
          { st with
            posx := fun m => if m = i then x else st.posx m,
            posy := fun m => if m = i then y else st.posy m,
            buckets := addToBuckets
              (delFromBuckets st.buckets (cellsForE st i) i)
              (cellsFor st.cellSize st.unit x y (st.esize i)) i,
            keys := fun m => if m = i then
              some (cellsFor st.cellSize st.unit x y (st.esize i))
              else st.keys m }) := by
      show shUpdate _ i = _
      rw [shUpdate]
      have h1 : ({ st with
          posx := fun m => if m = i then x else st.posx m,
          posy := fun m => if m = i then y else st.posy m } : SHState).keys i =
            some (cellsForE st i) := hkO
      rw [h1]
      have h2 : cellsForE { st with
          posx := fun m => if m = i then x else st.posx m,
          posy := fun m => if m = i then y else st.posy m } i =
            cellsFor st.cellSize st.unit x y (st.esize i) := by
        simp [cellsForE]
      rw [h2]
      rfl
    rw [hstep]
    by_cases hON : cellsForE st i = cellsFor st.cellSize st.unit x y (st.esize i)
    · rw [if_pos hON]
      intro j
      by_cases hj : j = i
      · subst hj
        refine ⟨fun _ => ⟨?_, ?_⟩, fun hl => ?_, fun k => ?_⟩
        · have h2 : st.keys j = some (cellsFor st.cellSize st.unit x y (st.esize j)) := by
            rw [hkO, hON]
          simpa [cellsForE] using h2
        · simpa using hsz
        · exact absurd (by simpa using hl) (by simp [hok])
        · have h2 := (hinv j).2.2 k
          rw [hON] at h2
          simpa [cellsForE] using h2
      · refine ⟨fun hl => ?_, fun hl => ?_, fun k => ?_⟩
        · have h := (hinv j).1 (by simpa [hj] using hl)
          simp only [cellsForE] at h
          simpa [cellsForE, hj] using h
        · simpa [hj] using (hinv j).2.1 (by simpa [hj] using hl)
        · have h := (hinv j).2.2 k
          simp only [cellsForE] at h
          simpa [cellsForE, hj] using h
    · rw [if_neg hON]
      intro j
      by_cases hj : j = i
      · subst hj
        refine ⟨fun _ => ⟨?_, ?_⟩, fun hl => ?_, fun k => ?_⟩
        · simp [cellsForE]
        · simpa using hsz
        · exact absurd (by simpa using hl) (by simp [hok])
        · have hb := (hinv j).2.2 k
          rw [hok] at hb
          simp only [cellsForE] at hb
          simp only [mem_addToBuckets, mem_delFromBuckets, cellsForE, hok,
            eq_self_iff_true, if_true, true_and] at hb ⊢
          tauto
      · refine ⟨fun hl => ?_, fun hl => ?_, fun k => ?_⟩
        · have h := (hinv j).1 (by simpa [hj] using hl)
          simp only [cellsForE] at h
          simpa [cellsForE, hj] using h
        · simpa [hj] using (hinv j).2.1 (by simpa [hj] using hl)
        · have hb := (hinv j).2.2 k
          simp only [cellsForE] at hb
          simp only [mem_addToBuckets, mem_delFromBuckets, cellsForE, hj,
            if_false, eq_self_iff_true, if_true, true_and] at hb ⊢
          constructor
          · rintro (⟨h1, -⟩ | ⟨h, -⟩)
            · exact hb.mp h1
            · exact h.elim
          · intro h
            exact Or.inl ⟨hb.mpr h, fun hc => hc.1.elim⟩
  | remove i =>
    cases hki : st.keys i with
    | none =>
      have hstep : shStep st (SHOp.remove i) = { st with
          live := fun m => if m = i then false else st.live m } := by
        simp [shStep, shRemove, hki]
      rw [hstep]
      have hnl : st.live i = false := by
        by_contra hc
        rw [Bool.not_eq_false] at hc
        exact absurd hki (by rw [((hinv i).1 hc).1]; simp)
      intro j
      by_cases hj : j = i
      · subst hj
        refine ⟨fun hl => by simp at hl, fun _ => by simpa using hki, fun k => ?_⟩
        have hb := (hinv j).2.2 k
        rw [hnl] at hb
        simp only [cellsForE] at hb
        simp only [cellsForE, eq_self_iff_true, if_true]
        constructor
        · intro h
          exact absurd (hb.mp h).1 (by simp)
        · rintro ⟨h, -⟩
          cases h
      · refine ⟨fun hl => ?_, fun hl => ?_, fun k => ?_⟩
        · have h := (hinv j).1 (by simpa [hj] using hl)
          simp only [cellsForE] at h
          simpa [cellsForE, hj] using h
        · simpa [hj] using (hinv j).2.1 (by simpa [hj] using hl)
        · have h := (hinv j).2.2 k
          simp only [cellsForE] at h
          simpa [cellsForE, hj] using h
    | some ks =>
      have hlv : st.live i = true := by
        by_contra hc
        rw [Bool.not_eq_true] at hc
        exact absurd hki (by rw [(hinv i).2.1 hc]; simp)
      have hks : ks = cellsForE st i := by
        have h := ((hinv i).1 hlv).1
        rw [hki] at h
        exact Option.some_inj.mp h
      have hstep : shStep st (SHOp.remove i) = { st with
          buckets := delFromBuckets st.buckets ks i,
          keys := fun m => if m = i then none else st.keys m,
          live := fun m => if m = i then false else st.live m } := by
        simp [shStep, shRemove, hki]
      rw [hstep]
      intro j
      by_cases hj : j = i
      · subst hj
        refine ⟨fun hl => by simp at hl, fun _ => by simp, fun k => ?_⟩
        have hb := (hinv j).2.2 k
        rw [hlv] at hb
        simp only [mem_delFromBuckets, eq_self_iff_true, if_true, true_and,
          not_and] at hb ⊢
        constructor
        · rintro ⟨h1, h2⟩
          rw [hks] at h2
          exact absurd (hb.mp h1) h2
        · rintro ⟨h, -⟩
          cases h
      · refine ⟨fun hl => ?_, fun hl => ?_, fun k => ?_⟩
        · have h := (hinv j).1 (by simpa [hj] using hl)
          simp only [cellsForE] at h
          simpa [cellsForE, hj] using h
        · simpa [hj] using (hinv j).2.1 (by simpa [hj] using hl)
        · have h := (hinv j).2.2 k
          simp only [cellsForE] at h
          simp only [mem_delFromBuckets, cellsForE, hj, if_false,
            eq_self_iff_true, if_true, true_and] at h ⊢
          constructor
          · rintro ⟨h1, -⟩
            exact h.mp h1
          · intro hx
            exact ⟨h.mpr hx, fun hc => hc.1.elim⟩

/-- The invariant holds after any well-used operation sequence from an empty
index. -/
theorem SHInv_run (st : SHState) (hinv : SHInv st) :
    ∀ ops : List SHOp, wellUsed st ops = true → SHInv (shRun st ops) := by
  intro ops
  induction ops generalizing st with
  | nil => intro _; exact hinv
  | cons op rest ih =>
    intro hw
    rw [wellUsed, Bool.and_eq_true] at hw
    exact ih (shStep st op) (SHInv_step st op hinv hw.1) hw.2

/-- The empty index satisfies the invariant. -/
theorem SHInv_init (u cs : ℤ) : SHInv (shInit u cs) := by
  intro i
  refine ⟨fun h => by simp [shInit] at h, fun _ => rfl, fun k => ?_⟩
  simp [shInit]


/-! ## C4 -/

/-- C4: after every well-used lifecycle operation sequence (registration by
`insert`, `update` invoked after each position change, `remove` on death),
every registered (live) entity's recorded `_spatialKeys` equal the cell keys
computed from its current position and footprint, and the entity is a member
of exactly those buckets — no stale membership. -/
theorem spatial_bucket_invariant (u cs : ℤ) (ops : List SHOp)
    (hw : wellUsed (shInit u cs) ops = true) (i : ℕ)
    (hl : (shRun (shInit u cs) ops).live i = true) :
    (shRun (shInit u cs) ops).keys i =
      some (cellsForE (shRun (shInit u cs) ops) i) ∧
    ∀ k, i ∈ (shRun (shInit u cs) ops).buckets k ↔
      k ∈ cellsForE (shRun (shInit u cs) ops) i := by
  have hinv := SHInv_run (shInit u cs) (SHInv_init u cs) ops hw
  refine ⟨((hinv i).1 hl).1, fun k => ?_⟩
  rw [(hinv i).2.2 k]
  simp [hl]

/-- C4, witness: after inserting entity `0` at the origin and moving it to
`(3,3)` with `update`, its recorded keys equal its computed cells and bucket
`(3,3)` membership matches. -/
theorem spatial_bucket_invariant_witness :
    (shRun (shInit 1 1) [SHOp.insert 0 0 0 1, SHOp.moveUpdate 0 3 3]).keys 0 =
      some (cellsForE
        (shRun (shInit 1 1) [SHOp.insert 0 0 0 1, SHOp.moveUpdate 0 3 3]) 0) ∧
    (0 ∈ (shRun (shInit 1 1)
        [SHOp.insert 0 0 0 1, SHOp.moveUpdate 0 3 3]).buckets (3, 3) ↔
      (3, 3) ∈ cellsForE
        (shRun (shInit 1 1) [SHOp.insert 0 0 0 1, SHOp.moveUpdate 0 3 3]) 0) :=
  have h := spatial_bucket_invariant 1 1
    [SHOp.insert 0 0 0 1, SHOp.moveUpdate 0 3 3] (by decide) 0 (by decide)
  ⟨h.1, h.2 (3, 3)⟩

/-! ## C3 -/

/-- The entity identifier an operation concerns. -/
def opId : SHOp → ℕ
  | .insert i _ _ _ => i
  | .moveUpdate i _ _ => i
  | .remove i => i

/-- The mentioned-identifier list is the list of per-operation identifiers. -/
theorem opsIds_cons (op : SHOp) (rest : List SHOp) :
    opsIds (op :: rest) = opId op :: opsIds rest := by
  cases op <;> rfl

/-- A lifecycle step can only make its own entity live. -/
theorem shStep_live (st : SHState) (op : SHOp) (i : ℕ)
    (h : (shStep st op).live i = true) : st.live i = true ∨ i = opId op := by
  cases op with
  | insert a x y s =>
    by_cases hai : i = a
    · exact Or.inr hai
    · left
      simpa [shStep, shInsert, hai] using h
  | moveUpdate a x y =>
    left
    rw [shStep, shUpdate] at h
    split at h <;> simpa using h
  | remove a =>
    by_cases hai : i = a
    · subst hai
      cases hk : st.keys i <;> simp [shStep, shRemove, hk] at h
    · left
      cases hk : st.keys a <;> simpa [shStep, shRemove, hk, hai] using h

/-- Entities live after a run are mentioned in the operation sequence (or
were live initially). -/
theorem live_mem_opsIds : ∀ (ops : List SHOp) (st : SHState) (i : ℕ),
    (shRun st ops).live i = true → st.live i = true ∨ i ∈ opsIds ops := by
  intro ops
  induction ops with
  | nil => exact fun st i h => Or.inl h
  | cons op rest ih =>
    intro st i h
    rw [shRun, List.foldl_cons] at h
    rcases ih (shStep st op) i h with h1 | h1
    · rcases shStep_live st op i h1 with h2 | h2
      · exact Or.inl h2
      · right
        rw [opsIds_cons, h2]
        exact List.mem_cons_self _ _
    · right
      rw [opsIds_cons]
      exact List.mem_cons_of_mem _ h1

/-- Lifecycle steps never change the cell size or the unit. -/
theorem shStep_cellSize (st : SHState) (op : SHOp) :
    (shStep st op).cellSize = st.cellSize ∧ (shStep st op).unit = st.unit := by
  cases op with
  | insert a x y s => exact ⟨rfl, rfl⟩
  | moveUpdate a x y =>
    constructor <;> (rw [shStep, shUpdate]; split <;> rfl)
  | remove a =>
    cases hk : st.keys a <;> simp [shStep, shRemove, hk]

/-- Runs never change the cell size or the unit. -/
theorem shRun_cellSize : ∀ (ops : List SHOp) (st : SHState),
    (shRun st ops).cellSize = st.cellSize ∧ (shRun st ops).unit = st.unit := by
  intro ops
  induction ops with
  | nil => exact fun st => ⟨rfl, rfl⟩
  | cons op rest ih =>
    intro st
    rw [shRun, List.foldl_cons]
    refine ⟨?_, ?_⟩
    · rw [show List.foldl shStep (shStep st op) rest = shRun (shStep st op) rest
        from rfl, (ih (shStep st op)).1, (shStep_cellSize st op).1]
    · rw [show List.foldl shStep (shStep st op) rest = shRun (shStep st op) rest
        from rfl, (ih (shStep st op)).2, (shStep_cellSize st op).2]

/-- Characterisation of `query` results: an entity is returned exactly when
it lies in a scanned bucket and passes the distance filter. -/
theorem mem_shQuery {st : SHState} {x y r : ℤ} {i : ℕ} :
    i ∈ shQuery st x y r ↔
      ∃ cx cy, Int.fdiv (x - r) st.cellSize ≤ cx ∧
        cx ≤ Int.fdiv (x + r) st.cellSize ∧
        Int.fdiv (y - r) st.cellSize ≤ cy ∧
        cy ≤ Int.fdiv (y + r) st.cellSize ∧
        i ∈ st.buckets (cx, cy) ∧
        (st.posx i - x) * (st.posx i - x) + (st.posy i - y) * (st.posy i - y)
          ≤ r * r := by
  simp only [shQuery, List.mem_flatMap, List.mem_filter, mem_intRange,
    decide_eq_true_eq]
  constructor
  · rintro ⟨cy, ⟨hy1, hy2⟩, cx, ⟨hx1, hx2⟩, hb, hd⟩
    exact ⟨cx, cy, hx1, hx2, hy1, hy2, hb, hd⟩
  · rintro ⟨cx, cy, hx1, hx2, hy1, hy2, hb, hd⟩
    exact ⟨cy, ⟨hy1, hy2⟩, cx, ⟨hx1, hx2⟩, hb, hd⟩

/-- The cell containing an entity's own position is among its cells. -/
theorem cellsFor_head_mem (cs u x y s : ℤ) (hcs : 0 < cs) (hu : 0 < u)
    (hs : 0 ≤ s) :
    (Int.fdiv x cs, Int.fdiv y cs) ∈ cellsFor cs u x y s := by
  have hsz : 0 < sizeOr1 u s := by
    rw [sizeOr1]
    split
    · exact hu
    · rename_i hne
      omega
  have hxle : Int.fdiv x cs ≤ Int.fdiv (x + sizeOr1 u s) cs := by
    rw [Int.fdiv_eq_ediv _ (le_of_lt hcs), Int.fdiv_eq_ediv _ (le_of_lt hcs)]
    exact Int.ediv_le_ediv hcs (by omega)
  have hyle : Int.fdiv y cs ≤ Int.fdiv (y + sizeOr1 u s) cs := by
    rw [Int.fdiv_eq_ediv _ (le_of_lt hcs), Int.fdiv_eq_ediv _ (le_of_lt hcs)]
    exact Int.ediv_le_ediv hcs (by omega)
  rw [cellsFor]
  simp only [List.mem_flatMap, List.mem_map]
  exact ⟨Int.fdiv y cs, mem_intRange.mpr ⟨le_refl _, hyle⟩,
    Int.fdiv x cs, mem_intRange.mpr ⟨le_refl _, hxle⟩, rfl⟩

/-- The whole-grid-coverage hypothesis of C3, decidably: every mentioned
live entity passes the distance filter and has all its cells inside the
query's scanned rectangle. -/
def coverB (st : SHState) (ops : List SHOp) (x y r : ℤ) : Bool :=
  (opsIds ops).all (fun i =>
    !st.live i ||
      (decide ((st.posx i - x) * (st.posx i - x) +
          (st.posy i - y) * (st.posy i - y) ≤ r * r) &&
        (cellsForE st i).all (fun k =>
          decide (Int.fdiv (x - r) st.cellSize ≤ k.1) &&
          decide (k.1 ≤ Int.fdiv (x + r) st.cellSize) &&
          decide (Int.fdiv (y - r) st.cellSize ≤ k.2) &&
          decide (k.2 ≤ Int.fdiv (y + r) st.cellSize))))

/-- C3, counterexample.  With cell size `1`, a single inserted entity of
size `1` at the origin overlaps four buckets (`_getCellsForEntity` ranges to
`floor((x + size) / cellSize)` inclusive), and a whole-grid query returns it
once per overlapping bucket: four occurrences, not exactly one. -/
theorem query_duplicates_counterexample :
    (shRun (shInit 1 1) [SHOp.insert 0 0 0 1]).live 0 = true ∧
    (shQuery (shRun (shInit 1 1) [SHOp.insert 0 0 0 1]) 0 0 5).count 0 = 4 := by
  exact ⟨by decide, by decide⟩

/-- C3, amended: for any well-used operation sequence and any query whose
radius covers the whole grid (every live entity passes the distance filter
and has all its cells inside the scanned rectangle), the query returns
exactly the currently-live, non-removed entities — no omissions and nothing
else — but an entity may appear once per bucket its footprint overlaps, so
the result can contain duplicates. -/
theorem query_covering_live_amended (u cs : ℤ) (ops : List SHOp) (x y r : ℤ)
    (hu : 0 < u) (hcs : 0 < cs)
    (hw : wellUsed (shInit u cs) ops = true)
    (hcov : coverB (shRun (shInit u cs) ops) ops x y r = true) :
    ∀ i, i ∈ shQuery (shRun (shInit u cs) ops) x y r ↔
      (shRun (shInit u cs) ops).live i = true := by
  have hinv := SHInv_run (shInit u cs) (SHInv_init u cs) ops hw
  intro i
  constructor
  · intro hq
    rw [mem_shQuery] at hq
    obtain ⟨cx, cy, -, -, -, -, hb, -⟩ := hq
    exact (((hinv i).2.2 (cx, cy)).mp hb).1
  · intro hl
    have hid : i ∈ opsIds ops := by
      rcases live_mem_opsIds ops (shInit u cs) i hl with h | h
      · simp [shInit] at h
      · exact h
    have hcc := List.all_eq_true.mp hcov i hid
    rw [Bool.or_eq_true, Bool.not_eq_true', Bool.and_eq_true] at hcc
    rcases hcc with hdead | ⟨hdist, hcells⟩
    · rw [hl] at hdead
      cases hdead
    rw [decide_eq_true_eq] at hdist
    have hcsu := shRun_cellSize ops (shInit u cs)
    have hkmem : (Int.fdiv ((shRun (shInit u cs) ops).posx i)
          (shRun (shInit u cs) ops).cellSize,
        Int.fdiv ((shRun (shInit u cs) ops).posy i)
          (shRun (shInit u cs) ops).cellSize) ∈
          cellsForE (shRun (shInit u cs) ops) i := by
      rw [cellsForE]
      exact cellsFor_head_mem _ _ _ _ _
        (by rw [hcsu.1]; exact hcs) (by rw [hcsu.2]; exact hu)
        ((hinv i).1 hl).2
    have hbk : i ∈ (shRun (shInit u cs) ops).buckets
        (Int.fdiv ((shRun (shInit u cs) ops).posx i)
          (shRun (shInit u cs) ops).cellSize,
         Int.fdiv ((shRun (shInit u cs) ops).posy i)
          (shRun (shInit u cs) ops).cellSize) :=
      ((hinv i).2.2 _).mpr ⟨hl, hkmem⟩
    have hrect := List.all_eq_true.mp hcells _ hkmem
    rw [Bool.and_eq_true, Bool.and_eq_true, Bool.and_eq_true] at hrect
    obtain ⟨⟨⟨h1, h2⟩, h3⟩, h4⟩ := hrect
    rw [decide_eq_true_eq] at h1 h2 h3 h4
    rw [mem_shQuery]
    exact ⟨_, _, h1, h2, h3, h4, hbk, hdist⟩

/-- C3, amended, witness: on the concrete duplicate example, membership in
the whole-grid query coincides with liveness for entity `0`. -/
theorem query_covering_live_amended_witness :
    0 ∈ shQuery (shRun (shInit 1 1) [SHOp.insert 0 0 0 1]) 0 0 5 ↔
      (shRun (shInit 1 1) [SHOp.insert 0 0 0 1]).live 0 = true :=
  query_covering_live_amended 1 1 [SHOp.insert 0 0 0 1] 0 0 5
    (by decide) (by decide) (by decide) (by decide) 0

/-! ## C10 -/

/-- A `getD` access within bounds yields a member of the list. -/
theorem getD_mem {α : Type} {l : List α} {i : ℕ} {d : α} (h : i < l.length) :
    l.getD i d ∈ l := by
  rw [List.getD_eq_getElem l d h]
  exact List.getElem_mem h

/-- A successful association-list lookup locates a member pair. -/
theorem lookup_mem {α β : Type} [BEq α] [LawfulBEq α] {l : List (α × β)}
    {k : α} {v : β} (h : List.lookup k l = some v) : (k, v) ∈ l := by
  induction l with
  | nil => cases h
  | cons a l ih =>
    rw [List.lookup] at h
    split at h
    · rename_i hbeq
      have h1 : k = a.1 := eq_of_beq hbeq
      have h2 : v = a.2 := (Option.some_inj.mp h).symm
      have : (k, v) = a := by
        rw [h1, h2]
      rw [this]
      exact List.mem_cons_self a l
    · exact List.mem_cons_of_mem _ (ih h)

/-- A passable tile is in bounds. -/
theorem isPassable_bounds {pf : Pathfinder} {x y : ℤ}
    (h : isPassable pf x y = true) :
    0 ≤ x ∧ x < pf.width ∧ 0 ≤ y ∧ y < pf.height := by
  rw [isPassable] at h
  split at h
  · cases h
  · rename_i hcond
    push_neg at hcond
    exact ⟨by omega, by omega, by omega, by omega⟩

/-- Bounds for the backward scan of `smoothPath`. -/
theorem smoothScan_bounds (pf : Pathfinder) (p : List Wp) (current : ℕ) :
    ∀ i, current + 1 ≤ smoothScan pf p current i ∧
      smoothScan pf p current i ≤ max (current + 1) i := by
  intro i
  induction i with
  | zero =>
    rw [smoothScan]
    omega
  | succ n ih =>
    rw [smoothScan]
    split
    · omega
    · split
      · rename_i hle _
        omega
      · omega

/-- Every waypoint emitted by the smoothing loop comes from the accumulator
or from the input path. -/
theorem smoothLoop_mem (pf : Pathfinder) (p : List Wp) :
    ∀ (fuel : ℕ) (current : ℕ) (acc : List Wp) (wp : Wp),
      wp ∈ smoothLoop pf p fuel current acc → wp ∈ acc ∨ wp ∈ p := by
  intro fuel
  induction fuel with
  | zero =>
    intro current acc wp h
    rw [smoothLoop] at h
    exact Or.inl h
  | succ n ih =>
    intro current acc wp h
    rw [smoothLoop] at h
    split at h
    · rename_i hcur
      dsimp only at h
      rcases ih _ _ wp h with h1 | h1
      · rcases List.mem_append.mp h1 with h2 | h2
        · exact Or.inl h2
        · right
          have hb := smoothScan_bounds pf p current (p.length - 1)
          have hlt : smoothScan pf p current (p.length - 1) < p.length := by
            omega
          have hwp : wp = p.getD (smoothScan pf p current (p.length - 1)) (0, 0) := by
            simpa using h2
          rw [hwp]
          exact getD_mem hlt
      · exact Or.inr h1
    · exact Or.inl h

/-- Smoothing returns a subsequence of its input: every waypoint of the
smoothed path is a waypoint of the reconstructed path. -/
theorem smoothPath_subset (pf : Pathfinder) (p : List Wp) (wp : Wp)
    (h : wp ∈ smoothPath pf p) : wp ∈ p := by
  rw [smoothPath] at h
  split at h
  · exact h
  · rename_i hlen
    rcases smoothLoop_mem pf p _ _ _ _ h with h1 | h1
    · have hwp : wp = p.getD 0 (0, 0) := by simpa using h1
      rw [hwp]
      exact getD_mem (by omega)
    · exact h1

/-- Unfolding equation of `reconstruct` for a missing node. -/
theorem reconstruct_eq_none {store : List (ℕ × NodeData)} {n i : ℕ}
    {acc : List Wp} (hg : storeGet store i = none) :
    reconstruct store (n + 1) i acc = acc := by
  rw [reconstruct, hg]

/-- Unfolding equation of `reconstruct` at the parentless (start) node. -/
theorem reconstruct_eq_root {store : List (ℕ × NodeData)} {n i : ℕ}
    {acc : List Wp} {nd : NodeData} (hg : storeGet store i = some nd)
    (hp : nd.parent = none) :
    reconstruct store (n + 1) i acc = acc := by
  rw [reconstruct, hg]
  show (match nd.parent with
    | none => acc
    | some p => reconstruct store n p (acc ++ [(center nd.x, center nd.y)])) = acc
  rw [hp]

/-- Unfolding equation of `reconstruct` at a node with a parent. -/
theorem reconstruct_eq_step {store : List (ℕ × NodeData)} {n i q : ℕ}
    {acc : List Wp} {nd : NodeData} (hg : storeGet store i = some nd)
    (hp : nd.parent = some q) :
    reconstruct store (n + 1) i acc =
      reconstruct store n q (acc ++ [(center nd.x, center nd.y)]) := by
  rw [reconstruct, hg]
  show (match nd.parent with
    | none => acc
    | some p => reconstruct store n p (acc ++ [(center nd.x, center nd.y)])) = _
  rw [hp]

/-- Every waypoint emitted by parent-pointer reconstruction is the centre of
a stored node that has a parent. -/
theorem reconstruct_mem (store : List (ℕ × NodeData)) :
    ∀ (fuel : ℕ) (i : ℕ) (acc : List Wp) (wp : Wp),
      wp ∈ reconstruct store fuel i acc →
      wp ∈ acc ∨ ∃ id nd, (id, nd) ∈ store ∧ nd.parent ≠ none ∧
        wp = (center nd.x, center nd.y) := by
  intro fuel
  induction fuel with
  | zero =>
    intro i acc wp h
    rw [reconstruct] at h
    exact Or.inl h
  | succ n ih =>
    intro i acc wp h
    cases hg : storeGet store i with
    | none =>
      rw [reconstruct_eq_none hg] at h
      exact Or.inl h
    | some nd =>
      cases hp : nd.parent with
      | none =>
        rw [reconstruct_eq_root hg hp] at h
        exact Or.inl h
      | some q =>
        rw [reconstruct_eq_step hg hp] at h
        rcases ih _ _ _ h with h1 | h1
        · rcases List.mem_append.mp h1 with h2 | h2
          · exact Or.inl h2
          · right
            refine ⟨i, nd, lookup_mem hg, by rw [hp]; simp, by simpa using h2⟩
        · exact Or.inr h1

/-- The property C10 asserts of every returned waypoint: it is the centre of
an in-bounds passable tile other than the start tile. -/
@[reducible] def wpOk (pf : Pathfinder) (sX sY : ℤ) (wp : Wp) : Prop :=
  ∃ tx ty : ℤ, wp = (center tx, center ty) ∧ isPassable pf tx ty = true ∧
    0 ≤ tx ∧ tx < pf.width ∧ 0 ≤ ty ∧ ty < pf.height ∧ ¬(tx = sX ∧ ty = sY)

/-- Search-node sanity: a parentless node is the start node; a node with a
parent sits on a passable tile that is not the start tile. -/
@[reducible] def NodeOk (pf : Pathfinder) (sX sY : ℤ) (nd : NodeData) : Prop :=
  (nd.parent = none → nd.x = sX ∧ nd.y = sY) ∧
  (nd.parent ≠ none → isPassable pf nd.x nd.y = true ∧ ¬(nd.x = sX ∧ nd.y = sY))

/-- The A* loop invariant: all stored nodes are sane, open-set entries point
at stored nodes with matching tile keys, and stored/open identifiers are
below the allocation counter. -/
@[reducible] def AOkCore (pf : Pathfinder) (sX sY : ℤ) (st : AState) : Prop :=
  (∀ p ∈ st.store, NodeOk pf sX sY p.2) ∧
  (∀ q ∈ st.openSet, ∀ nd, (q.2, nd) ∈ st.store → nd.x = q.1.1 ∧ nd.y = q.1.2) ∧
  (∀ p ∈ st.store, p.1 < st.nextId) ∧
  (∀ q ∈ st.openSet, q.2 < st.nextId)

/-- The invariant holds initially. -/
theorem AOkCore_init (pf : Pathfinder) (sX sY : ℤ) :
    AOkCore pf sX sY (initA sX sY) := by
  refine ⟨?_, ?_, ?_, ?_⟩
  · intro p hp
    have hp1 : p = (0, ⟨sX, sY, 0, 0, 0, none⟩) := by simpa [initA] using hp
    rw [hp1]
    exact ⟨fun _ => ⟨rfl, rfl⟩, fun hc => absurd rfl hc⟩
  · intro q hq ndX hndX
    have hq1 : q = ((sX, sY), 0) := by simpa [initA] using hq
    rw [hq1] at hndX ⊢
    have h2 : ndX = ⟨sX, sY, 0, 0, 0, none⟩ := by simpa [initA] using hndX
    rw [h2]
    exact ⟨rfl, rfl⟩
  · intro p hp
    have hp1 : p = (0, ⟨sX, sY, 0, 0, 0, none⟩) := by simpa [initA] using hp
    rw [hp1]
    simp [initA]
  · intro q hq
    have hq1 : q = ((sX, sY), 0) := by simpa [initA] using hq
    rw [hq1]
    simp [initA]

/-- The invariant ignores the heap, survives filtering the open set and
replacing the closed list. -/
theorem AOkCore_shrink (pf : Pathfinder) (sX sY : ℤ) (st : AState)
    (heap1 : List ℕ) (pred : (ℤ × ℤ) × ℕ → Bool) (c1 : List (ℤ × ℤ))
    (hA : AOkCore pf sX sY st) :
    AOkCore pf sX sY
      { st with
        heap := heap1
        openSet := st.openSet.filter pred
        closed := c1 } := by
  obtain ⟨h1, h2, h3, h4⟩ := hA
  exact ⟨h1, fun q hq => h2 q (List.mem_of_mem_filter hq), h3,
    fun q hq => h4 q (List.mem_of_mem_filter hq)⟩

/-- Writing a node field in place does not change the stored identifiers. -/
theorem storeSet_map_fst (s : List (ℕ × NodeData)) (i : ℕ) (nd : NodeData) :
    (storeSet s i nd).map Prod.fst = s.map Prod.fst := by
  rw [storeSet, List.map_map]
  apply List.map_congr_left
  intro p _
  by_cases hc : p.1 = i <;> simp [hc]

/-- One neighbour-loop iteration preserves the invariant, provided the start
key is already closed (true from the first expansion on): created nodes are
guarded by the closed-set and passability checks, and a relaxation rewrites
the parent of an open node in place, keeping its tile. -/
theorem stepNeighbor_pres (pf : Pathfinder) (sX sY endX endY : ℤ)
    (curId : ℕ) (cur : NodeData) (st : AState) (nb : Neighbor)
    (hA : AOkCore pf sX sY st) (hstart : (sX, sY) ∈ st.closed) :
    AOkCore pf sX sY (stepNeighbor pf endX endY curId cur st nb) ∧
    (sX, sY) ∈ (stepNeighbor pf endX endY curId cur st nb).closed := by
  obtain ⟨hstore, hokey, hfs, hfo⟩ := hA
  rw [stepNeighbor]
  split
  · exact ⟨⟨hstore, hokey, hfs, hfo⟩, hstart⟩
  · rename_i hskip
    rw [not_or] at hskip
    obtain ⟨hnc, hpass1⟩ := hskip
    have hpass : isPassable pf nb.x nb.y = true := by
      revert hpass1
      cases isPassable pf nb.x nb.y <;> simp
    have hkey : ¬(nb.x = sX ∧ nb.y = sY) := by
      rintro ⟨h1, h2⟩
      apply hnc
      have he : (nb.x, nb.y) = (sX, sY) := by rw [h1, h2]
      rw [he]
      exact List.elem_eq_true_of_mem hstart
    split
    · -- unseen neighbour: create and push a fresh node
      refine ⟨⟨?_, ?_, ?_, ?_⟩, hstart⟩
      · intro p hp
        rcases List.mem_append.mp hp with h | h
        · exact hstore p h
        · have hp1 : p = (st.nextId,
              ⟨nb.x, nb.y, cur.g + nb.cost,
                octileS ((nb.x - endX).natAbs : ℤ) ((nb.y - endY).natAbs : ℤ),
                cur.g + nb.cost +
                  octileS ((nb.x - endX).natAbs : ℤ) ((nb.y - endY).natAbs : ℤ),
                some curId⟩) := by
            simpa using h
          rw [hp1]
          constructor
          · intro hc
            simp at hc
          · intro _
            exact ⟨hpass, hkey⟩
      · intro q hq ndX hndX
        rcases List.mem_append.mp hq with hqo | hqn
        · rcases List.mem_append.mp hndX with hso | hsn
          · exact hokey q hqo ndX hso
          · have h1 : q.2 = st.nextId := by
              have := List.mem_singleton.mp hsn
              exact congrArg Prod.fst this
            exact absurd h1 (by have := hfo q hqo; omega)
        · have hq1 : q = ((nb.x, nb.y), st.nextId) := List.mem_singleton.mp hqn
          rw [hq1] at hndX ⊢
          rcases List.mem_append.mp hndX with hso | hsn
          · exact absurd (hfs _ hso) (by omega)
          · have h2 := List.mem_singleton.mp hsn
            have h3 : ndX = ⟨nb.x, nb.y, cur.g + nb.cost,
                octileS ((nb.x - endX).natAbs : ℤ) ((nb.y - endY).natAbs : ℤ),
                cur.g + nb.cost +
                  octileS ((nb.x - endX).natAbs : ℤ) ((nb.y - endY).natAbs : ℤ),
                some curId⟩ := by
              have := congrArg Prod.snd h2
              simpa using this
            rw [h3]
            exact ⟨rfl, rfl⟩
      · intro p hp
        show p.1 < st.nextId + 1
        rcases List.mem_append.mp hp with h | h
        · have := hfs p h
          omega
        · have h1 : p.1 = st.nextId := congrArg Prod.fst (List.mem_singleton.mp h)
          omega
      · intro q hq
        show q.2 < st.nextId + 1
        rcases List.mem_append.mp hq with h | h
        · have := hfo q h
          omega
        · have h1 : q.2 = st.nextId := congrArg Prod.snd (List.mem_singleton.mp h)
          omega
    · rename_i exId hlk
      split
      · exact ⟨⟨hstore, hokey, hfs, hfo⟩, hstart⟩
      · rename_i ex hex
        dsimp only
        split
        · -- relaxation: rewrite parent/g/f of the open node in place
          have hmemo : ((nb.x, nb.y), exId) ∈ st.openSet := lookup_mem hlk
          have hmems : (exId, ex) ∈ st.store := lookup_mem hex
          have hexco := hokey _ hmemo ex hmems
          refine ⟨⟨?_, ?_, ?_, hfo⟩, hstart⟩
          · intro p hp
            obtain ⟨p0, hp0, heq⟩ := List.mem_map.mp hp
            by_cases hc : p0.1 = exId
            · rw [if_pos hc] at heq
              rw [← heq]
              constructor
              · intro hcon
                simp at hcon
              · intro _
                have hx : ex.x = nb.x := hexco.1
                have hy : ex.y = nb.y := hexco.2
                constructor
                · show isPassable pf ex.x ex.y = true
                  rw [hx, hy]
                  exact hpass
                · show ¬(ex.x = sX ∧ ex.y = sY)
                  rw [hx, hy]
                  exact hkey
            · rw [if_neg hc] at heq
              rw [← heq]
              exact hstore p0 hp0
          · intro q hq ndX hndX
            obtain ⟨p0, hp0, heq⟩ := List.mem_map.mp hndX
            by_cases hc : p0.1 = exId
            · rw [if_pos hc] at heq
              have hq2 : q.2 = exId := (congrArg Prod.fst heq).symm
              have hnd2 : ndX =
                  { ex with
                    parent := some curId
                    g := cur.g + nb.cost
                    f := cur.g + nb.cost + ex.h } := (congrArg Prod.snd heq).symm
              have h4 := hokey q hq ex (by rw [hq2]; exact hmems)
              rw [hnd2]
              exact h4
            · rw [if_neg hc] at heq
              exact hokey q hq ndX (by rw [heq] at hp0; exact hp0)
          · intro p hp
            obtain ⟨p0, hp0, heq⟩ := List.mem_map.mp hp
            by_cases hc : p0.1 = exId
            · rw [if_pos hc] at heq
              have h1 : p.1 = exId := (congrArg Prod.fst heq).symm
              rw [h1, ← hc]
              exact hfs p0 hp0
            · rw [if_neg hc] at heq
              rw [← heq]
              exact hfs p0 hp0
        · exact ⟨⟨hstore, hokey, hfs, hfo⟩, hstart⟩

/-- The whole neighbour loop preserves the invariant. -/
theorem foldNeighbors_pres (pf : Pathfinder) (sX sY endX endY : ℤ)
    (curId : ℕ) (cur : NodeData) :
    ∀ (l : List Neighbor) (st : AState),
      AOkCore pf sX sY st → (sX, sY) ∈ st.closed →
      AOkCore pf sX sY (l.foldl (stepNeighbor pf endX endY curId cur) st) ∧
      (sX, sY) ∈ (l.foldl (stepNeighbor pf endX endY curId cur) st).closed := by
  intro l
  induction l with
  | nil => exact fun st hA hc => ⟨hA, hc⟩
  | cons nb l ih =>
    intro st hA hc
    rw [List.foldl_cons]
    have h := stepNeighbor_pres pf sX sY endX endY curId cur st nb hA hc
    exact ih _ h.1 h.2

/-- Main loop lemma for C10: under the invariant, every waypoint the loop
returns is the centre of an in-bounds passable non-start tile. -/
theorem aloop_wpOk (pf : Pathfinder) (sX sY endX endY : ℤ) :
    ∀ (fuel : ℕ) (st : AState),
      AOkCore pf sX sY st → ((sX, sY) ∈ st.closed ∨ st = initA sX sY) →
      ∀ wp ∈ (aloop pf endX endY fuel st).1, wpOk pf sX sY wp := by
  intro fuel
  induction fuel with
  | zero =>
    intro st _ _ wp hwp
    rw [aloop] at hwp
    split at hwp <;> simp at hwp
  | succ n ih =>
    intro st hA hD wp hwp
    rw [aloop] at hwp
    split at hwp
    · simp at hwp
    · split at hwp
      · simp at hwp
      · rename_i curId heap1 hpop
        split at hwp
        · rename_i hsg
          dsimp only at hwp
          rcases hD with hD | hD
          · exact ih { st with heap := heap1 } hA (Or.inl hD) wp hwp
          · exfalso
            rw [hD] at hpop hsg
            simp [initA, heapPop, fOf] at hpop
            rw [← hpop.1] at hsg
            simp [initA, storeGet, List.lookup] at hsg
        · rename_i cur hsg
          split at hwp
          · rename_i hgoal
            dsimp only at hwp
            have h1 := smoothPath_subset _ _ _ hwp
            rw [List.mem_reverse] at h1
            rcases reconstruct_mem _ _ _ _ _ h1 with h2 | h2
            · simp at h2
            · obtain ⟨id, ndX, hmem, hpar, hwpe⟩ := h2
              have hok := hA.1 (id, ndX) hmem
              have h3 := hok.2 hpar
              obtain ⟨hb1, hb2, hb3, hb4⟩ := isPassable_bounds h3.1
              exact ⟨ndX.x, ndX.y, hwpe, h3.1, hb1, hb2, hb3, hb4, h3.2⟩
          · dsimp only at hwp
            rcases hD with hD | hD
            · refine ih _ ?_ (Or.inl ?_) wp hwp
              · exact (foldNeighbors_pres pf sX sY endX endY curId cur _ _
                  (AOkCore_shrink pf sX sY st heap1 _ _ hA)
                  (List.mem_append.mpr (Or.inl hD))).1
              · exact (foldNeighbors_pres pf sX sY endX endY curId cur _ _
                  (AOkCore_shrink pf sX sY st heap1 _ _ hA)
                  (List.mem_append.mpr (Or.inl hD))).2
            · rw [hD] at hpop hsg
              simp [initA, heapPop, fOf] at hpop
              rw [← hpop.1] at hsg
              simp [initA, storeGet, List.lookup] at hsg
              have hcx : cur.x = sX := by rw [← hsg]
              have hcy : cur.y = sY := by rw [← hsg]
              have hcl : (sX, sY) ∈ st.closed ++ [(cur.x, cur.y)] := by
                rw [hcx, hcy]
                exact List.mem_append.mpr (Or.inr (List.mem_singleton.mpr rfl))
              refine ih _ ?_ (Or.inl ?_) wp hwp
              · exact (foldNeighbors_pres pf sX sY endX endY curId cur _ _
                  (AOkCore_shrink pf sX sY st heap1 _ _ hA) hcl).1
              · exact (foldNeighbors_pres pf sX sY endX endY curId cur _ _
                  (AOkCore_shrink pf sX sY st heap1 _ _ hA) hcl).2

/-- Every waypoint of every `_computePath` result is the centre of an
in-bounds passable tile other than the start tile. -/
theorem computePath_wpOk (pf : Pathfinder) (sX sY eX eY : ℤ) :
    ∀ wp ∈ (computePath pf sX sY eX eY).1, wpOk pf sX sY wp := by
  intro wp hwp
  rw [computePath] at hwp
  split at hwp
  · simp at hwp
  · exact aloop_wpOk pf sX sY _ _ MAXITER (initA sX sY)
      (AOkCore_init pf sX sY) (Or.inr rfl) wp hwp

/-- Cache well-formedness: every cached waypoint satisfies C10's property
for the start tile recorded in its key (true of every entry `findPath`
itself stores). -/
@[reducible] def cacheWF (pf : Pathfinder) (cache : Cache) : Prop :=
  ∀ e ∈ cache, ∀ wp ∈ e.2, wpOk pf e.1.1 e.1.2.1 wp

/-- C10: every waypoint of every path returned by `findPath` (cache hit or
miss, before or after memoization) is the centre `(t + 0.5, t' + 0.5)` of an
in-bounds passable tile, and the start tile's centre is never among the
waypoints.  Reconstruction stops before the start node, nodes are only
created on passable non-closed tiles (the start key being closed from the
first expansion), relaxation rewires parents without moving nodes, and
smoothing returns a subsequence of the reconstructed waypoints. -/
theorem findPath_fst (pf : Pathfinder) (cache : Cache)
    (sx sy ex ey : ℤ) (u : Bool) :
    (findPath pf cache sx sy ex ey u).1 =
      if mfloor sx = mfloor ex ∧ mfloor sy = mfloor ey then []
      else
        match (if u = true then
            List.lookup (mfloor sx, mfloor sy, mfloor ex, mfloor ey) cache
          else none) with
        | some p => p
        | none =>
          (computePath pf (mfloor sx) (mfloor sy) (mfloor ex) (mfloor ey)).1 := by
  rw [findPath]
  dsimp only
  by_cases hsame : mfloor sx = mfloor ex ∧ mfloor sy = mfloor ey
  · rw [if_pos hsame, if_pos hsame]
  · rw [if_neg hsame, if_neg hsame]
    cases hlk : (if u = true then
        List.lookup (mfloor sx, mfloor sy, mfloor ex, mfloor ey) cache
      else none) with
    | some p => simp only [hlk]
    | none =>
      simp only [hlk]
      split <;> rfl

/-- C10: every waypoint of every path returned by `findPath` (cache hit or
miss, before or after memoization) is the centre `(t + 0.5, t' + 0.5)` of an
in-bounds passable tile, and the start tile's centre is never among the
waypoints.  Reconstruction stops before the start node, nodes are only
created on passable non-closed tiles (the start key being closed from the
first expansion), relaxation rewires parents without moving nodes, and
smoothing returns a subsequence of the reconstructed waypoints. -/
theorem findpath_waypoints_passable (pf : Pathfinder) (cache : Cache)
    (sx sy ex ey : ℤ) (u : Bool) (hwf : cacheWF pf cache) :
    ∀ wp ∈ (findPath pf cache sx sy ex ey u).1,
      wpOk pf (mfloor sx) (mfloor sy) wp := by
  intro wp hwp
  rw [findPath_fst] at hwp
  by_cases hsame : mfloor sx = mfloor ex ∧ mfloor sy = mfloor ey
  · rw [if_pos hsame] at hwp
    simp at hwp
  · rw [if_neg hsame] at hwp
    cases hlk : (if u = true then
        List.lookup (mfloor sx, mfloor sy, mfloor ex, mfloor ey) cache
      else none) with
    | some p =>
      rw [hlk] at hwp
      have hwp1 : wp ∈ p := hwp
      have hget : List.lookup (mfloor sx, mfloor sy, mfloor ex, mfloor ey)
          cache = some p := by
        cases hu : u with
        | false =>
          rw [hu] at hlk
          simp at hlk
        | true =>
          rw [hu] at hlk
          simpa using hlk
      exact hwf _ (lookup_mem hget) wp hwp1
    | none =>
      rw [hlk] at hwp
      exact computePath_wpOk pf _ _ _ _ wp hwp

/-- C10, witness: on the concrete map `pf32` with an empty cache, the first
returned waypoint is a passable non-start tile centre. -/
theorem findpath_waypoints_passable_witness :
    wpOk pf32 0 0 (center 1, center 0) :=
  findpath_waypoints_passable pf32 [] 0 0 (2 * S) (1 * S) true
    (fun e he => absurd he (List.not_mem_nil e)) (center 1, center 0)
    (by decide)

end RTS
